import Mathlib

set_option maxRecDepth 8000

/-!
Verification of the graph-to-grid layout engine of `app.js`
(`resolveColumns`, `computePositions`, `routeEdge`).

Numbers: JS numbers are modelled by `ℚ` (all layout arithmetic in the source
is addition, subtraction, multiplication and division by small integers, which
is exact on rationals); discrete columns are modelled by `ℤ`.

JS `Map` objects are modelled by insertion-ordered association lists (`JMap`):
`set` overwrites in place (preserving insertion order) or appends, exactly as
a JS `Map` does.
-/

-- ── Layout configuration (the `cfg` constant of app.js) ─────────────────

namespace cfg

def boxW : ℚ := 204

def boxH : ℚ := 80

def gapX : ℚ := 100

def gapY : ℚ := 30

def marginX : ℚ := 60

def marginY : ℚ := 60

def clusterPad : ℚ := 14

end cfg

-- ── JS Map model ────────────────────────────────────────────────────────

abbrev JMap (κ α : Type) : Type := List (κ × α)

def JMap.get {κ α : Type} [DecidableEq κ] : JMap κ α → κ → Option α
  | [], _ => none
  | p :: rest, k => if p.1 = k then some p.2 else JMap.get rest k

/-- JS `Map.prototype.set`: overwrite in place if the key exists (keys are
unique in a `Map`, so replacing the first occurrence is the JS behaviour),
else append. -/
def JMap.set {κ α : Type} [DecidableEq κ] : JMap κ α → κ → α → JMap κ α
  | [], k, v => [(k, v)]
  | p :: rest, k, v => if p.1 = k then (k, v) :: rest else p :: JMap.set rest k v

def JMap.has {κ α : Type} [DecidableEq κ] (m : JMap κ α) (k : κ) : Bool :=
  (JMap.get m k).isSome

/-- The upsert pattern `if (!m.has(k)) m.set(k, []); m.get(k).push(v)` used
for all the list-valued maps in `computePositions`. -/
def pushVal {κ α : Type} [DecidableEq κ] (m : JMap κ (List α)) (k : κ)
    (v : α) : JMap κ (List α) :=
  match JMap.get m k with
  | some l => JMap.set m k (l ++ [v])
  | none => JMap.set m k [v]

theorem JMap.get_set_eq {κ α : Type} [DecidableEq κ] (m : JMap κ α) (k : κ)
    (v : α) : JMap.get (JMap.set m k v) k = some v := by
  induction m with
  | nil => simp [JMap.set, JMap.get]
  | cons p rest ih =>
    by_cases hp : p.1 = k
    · simp [JMap.set, JMap.get, hp]
    · simp [JMap.set, JMap.get, hp, ih]

theorem JMap.get_set_ne {κ α : Type} [DecidableEq κ] (m : JMap κ α)
    (k k' : κ) (v : α) (h : k' ≠ k) :
    JMap.get (JMap.set m k v) k' = JMap.get m k' := by
  have hkk' : ¬ k = k' := fun hh => h hh.symm
  induction m with
  | nil => simp [JMap.set, JMap.get, hkk']
  | cons p rest ih =>
    by_cases hp : p.1 = k
    · simp [JMap.set, JMap.get, hp, hkk', ih]
    · by_cases hp' : p.1 = k'
      · simp [JMap.set, JMap.get, hp, hp', h, hkk']
      · simp [JMap.set, JMap.get, hp, hp', ih]

theorem JMap.get_of_isSome_set {κ α : Type} [DecidableEq κ] (m : JMap κ α)
    (k k' : κ) (v : α) (h : (JMap.get m k').isSome) :
    (JMap.get (JMap.set m k v) k').isSome := by
  by_cases hk : k' = k
  · subst hk; rw [JMap.get_set_eq]; rfl
  · rw [JMap.get_set_ne m k k' v hk]; exact h

-- ── String keys used by app.js template literals ────────────────────────

def dash : String := "-"

def phTag : String := "ph-"

def rootKey : String := "__root__"

/-- `` `${pid}-${col}` `` — key of a skip-edge group. -/
def gKey (pid : String) (col : Int) : String :=
  pid ++ dash ++ toString col

/-- `` `${childId}-${parentId}-${col}` `` — key into `nodeToPlaceholderCluster`. -/
def nKey (childId parentId : String) (col : Int) : String :=
  childId ++ dash ++ parentId ++ dash ++ toString col

/-- `` `${parentId}-${col}-${clusterIdx}` `` — key into `placeholderMap`. -/
def phKeyStr (parentId : String) (col : Int) (ci : Nat) : String :=
  parentId ++ dash ++ toString col ++ dash ++ toString ci

/-- `` `ph-${parentId}-${col}-${clusterIdx}` `` — id of a placeholder. -/
def phId (parentId : String) (col : Int) (ci : Nat) : String :=
  phTag ++ phKeyStr parentId col ci

-- ── Entity data model ───────────────────────────────────────────────────

/-- The `layout` object of a technology node (`col`, `parent`, `parents`,
`offset`, `_clusterId`); absent JS fields are `none`. -/
structure Layout where
  col : Option Int
  parent : Option String
  parents : Option (List String)
  offset : Option Int
  clusterId : Option String
  deriving DecidableEq, Repr

def Layout.empty : Layout :=
  { col := none, parent := none, parents := none, offset := none,
    clusterId := none }

/-- A technology node as consumed by the layout engine: an id plus an
optional `layout` object. -/
structure Node where
  id : String
  layout : Option Layout
  deriving DecidableEq, Repr

/-- `getLayoutParentIds` (app.js): `layout.parents` if present and
non-empty, else `[layout.parent]` if present, else `[]`. -/
def getLayoutParentIds (n : Node) : List String :=
  match n.layout with
  | none => []
  | some l =>
    match l.parents with
    | some ps =>
      if ps.isEmpty then
        match l.parent with
        | some p => [p]
        | none => []
      else ps
    | none =>
      match l.parent with
      | some p => [p]
      | none => []

def layoutCol (n : Node) : Option Int :=
  n.layout.bind (fun l => l.col)

/-- `layout.offset !== undefined ? layout.offset : 1`. -/
def offsetOf (n : Node) : Int :=
  (n.layout.bind (fun l => l.offset)).getD 1

/-- `new Map(nodes.map(n => [n.id, n]))`: later entries win. -/
def byId (nodes : List Node) (i : String) : Option Node :=
  List.find? (fun n => decide (n.id = i)) nodes.reverse

-- ── resolveColumns ──────────────────────────────────────────────────────

/-- `getCol` inside `resolveColumns` (app.js, lines 378-403), with explicit
recursion fuel standing for the JS call stack: `none` models the
non-termination that a cyclic parent chain would produce.  The JS memo table
is a pure cache and does not change the computed values, so it is omitted.
  - unknown id (dangling reference): column 0;
  - explicit `layout.col`: that value;
  - no parents: column 0;
  - otherwise: first parent's column plus `offset` (default 1). -/
def getCol (nodes : List Node) : Nat → String → Option Int
  | 0, _ => none
  | fuel + 1, nodeId =>
    match byId nodes nodeId with
    | none => some 0
    | some node =>
      match layoutCol node with
      | some c => some c
      | none =>
        match getLayoutParentIds node with
        | [] => some 0
        | p :: _ =>
          (getCol nodes fuel p).map (fun pc => pc + offsetOf node)

/-- The write-back `n.layout.col = resolved.get(n.id)` of `resolveColumns`
(creating `n.layout` when absent). -/
def writeBack (n : Node) (c : Int) : Node :=
  { n with
    layout := some (match n.layout with
      | some l => { l with col := some c }
      | none => { Layout.empty with col := some c }) }

def resolveList (nodes : List Node) (fuel : Nat) : List Node → Option (List Node)
  | [] => some []
  | n :: rest =>
    match getCol nodes fuel n.id with
    | none => none
    | some c =>
      (resolveList nodes fuel rest).map (fun rs => writeBack n c :: rs)

/-- `resolveColumns` (app.js, lines 374-415): resolve every node's column and
write the result back onto the node's `layout`; returns the mutated node
list (`none` if the recursion does not terminate within `fuel`). -/
def resolveColumns (fuel : Nat) (nodes : List Node) : Option (List Node) :=
  resolveList nodes fuel nodes

-- ── Position-map entries and edge routing ───────────────────────────────

structure Pt where
  x : ℚ
  y : ℚ
  deriving DecidableEq, Repr

/-- One entry of the `pos` map built by `computePositions`.  The
`cluster*` fields are only meaningful when `isCluster` is true (in JS they
are simply absent from non-cluster entries and never read for them). -/
structure PosEntry where
  x : ℚ
  y : ℚ
  col : Int
  centerY : ℚ
  isPlaceholder : Bool := false
  isCluster : Bool := false
  clusterW : ℚ := 0
  clusterH : ℚ := 0
  clusterRight : ℚ := 0
  clusterLeft : ℚ := 0
  deriving DecidableEq, Repr

def midRight (p : PosEntry) : Pt :=
  if p.isCluster then ⟨p.clusterRight, p.centerY⟩ else ⟨p.x + cfg.boxW, p.centerY⟩

def midLeft (p : PosEntry) : Pt :=
  if p.isCluster then ⟨p.clusterLeft, p.centerY⟩ else ⟨p.x, p.centerY⟩

def betweenColsX (colA colB : Int) : ℚ :=
  ((cfg.marginX + colA * (cfg.boxW + cfg.gapX) + cfg.boxW) +
    (cfg.marginX + colB * (cfg.boxW + cfg.gapX))) / 2

/-- `[a, a+1, ..., b-1]` — the JS loop `for (let col = a; col < b; col++)`. -/
def intRange (a b : Int) : List Int :=
  (List.range (b - a).toNat).map (fun i => a + Int.ofNat i)

/-- The waypoint-collection loop of `routeEdge` (app.js, lines 792-800). -/
def collectWaypoints (parentId childId : String) (pos : JMap String PosEntry)
    (n2pc : JMap String Nat) (pcol ccol : Int) : List PosEntry :=
  (intRange (pcol + 1) ccol).filterMap (fun col =>
    let ci := (JMap.get n2pc (nKey childId parentId col)).getD 0
    JMap.get pos (phId parentId col ci))

/-- The elbow pairs pushed for each waypoint (app.js, lines 811-817);
returns the points together with the final `prevY`. -/
def wpSegments : List PosEntry → ℚ → List Pt × ℚ
  | [], prevY => ([], prevY)
  | wp :: rest, prevY =>
    let xHop := betweenColsX (wp.col - 1) wp.col
    let tail := wpSegments rest wp.centerY
    (⟨xHop, prevY⟩ :: ⟨xHop, wp.centerY⟩ :: tail.1, tail.2)

/-- `routeEdge` (app.js, lines 782-827). -/
def routeEdge (parentId childId : String) (pos : JMap String PosEntry)
    (n2pc : JMap String Nat) : List Pt :=
  match JMap.get pos parentId, JMap.get pos childId with
  | some p, some c =>
    let S := midRight p
    let E := midLeft c
    match collectWaypoints parentId childId pos n2pc p.col c.col with
    | [] =>
      let xHop := betweenColsX p.col c.col
      [S, ⟨xHop, S.y⟩, ⟨xHop, E.y⟩, E]
    | w0 :: rest =>
      let sp := wpSegments (w0 :: rest) S.y
      let lastWp := (w0 :: rest).getLast (List.cons_ne_nil w0 rest)
      let xHop := betweenColsX lastWp.col c.col
      S :: (sp.1 ++ [⟨xHop, sp.2⟩, ⟨xHop, E.y⟩, E])
  | _, _ => []

-- ── Resolved nodes, clusters and items (computePositions data) ──────────

/-- A node as seen inside `computePositions` after `resolveColumns` has
written every column back: `id`, `layout.col`, `getLayoutParentIds`,
`layout._clusterId` and the enumeration index `inputIdx` are the only parts
of a node the rest of the function reads. -/
structure RNode where
  id : String
  col : Int
  parentIds : List String
  clusterId : Option String
  inputIdx : Nat
  deriving DecidableEq, Repr

/-- A cluster record of `DATA.clusters` as consumed by `computePositions`. -/
structure Cluster where
  id : String
  col : Int
  members : List String
  parentIds : List String
  deriving DecidableEq, Repr

/-- A member of `allItems`: either a real node (spread with its `inputIdx`)
or a synthesized placeholder (which carries a `parent` field). -/
structure Item where
  id : String
  col : Int
  inputIdx : Nat
  isPlaceholder : Bool
  clusterId : Option String
  parent : Option String
  deriving DecidableEq, Repr

/-- `nodes.map((n, i) => ({...n, inputIdx: i}))` restricted to the fields
`computePositions` reads. -/
def enrich (nodes : List Node) : List RNode :=
  nodes.enum.map (fun pr =>
    { id := pr.2.id
      col := (layoutCol pr.2).getD 0
      parentIds := getLayoutParentIds pr.2
      clusterId := pr.2.layout.bind (fun l => l.clusterId)
      inputIdx := pr.1 })

def byIdR (rn : List RNode) (i : String) : Option RNode :=
  List.find? (fun n => decide (n.id = i)) rn.reverse

def clusterById (cls : List Cluster) (i : String) : Option Cluster :=
  List.find? (fun c => decide (c.id = i)) cls.reverse

/-- Parent-column lookup shared by the skip-edge scan and `layoutParents`
(app.js, lines 452-460 and 532-539): a cluster id wins over a node id;
a dangling id yields `none`. -/
def resolveParentCol (rn : List RNode) (cls : List Cluster) (pid : String) :
    Option Int :=
  match clusterById cls pid with
  | some cm => some cm.col
  | none => (byIdR rn pid).map (fun n => n.col)

-- ── Step 1: placeholders for column-skipping edges ──────────────────────

structure SkipGroup where
  parentId : String
  parentCol : Int
  col : Int
  children : List RNode
  deriving DecidableEq, Repr

def pushGroupChild (m : JMap String SkipGroup) (pid : String) (pc col : Int)
    (child : RNode) : JMap String SkipGroup :=
  match JMap.get m (gKey pid col) with
  | some g => JMap.set m (gKey pid col) { g with children := g.children ++ [child] }
  | none =>
    JMap.set m (gKey pid col)
      { parentId := pid, parentCol := pc, col := col, children := [child] }

/-- The body of the `nodes.forEach` at app.js lines 449-471 for one node. -/
def addNodeSkipEdges (rn : List RNode) (cls : List Cluster)
    (m : JMap String SkipGroup) (n : RNode) : JMap String SkipGroup :=
  n.parentIds.foldl (fun m pid =>
    match resolveParentCol rn cls pid with
    | none => m
    | some pc =>
      if n.col ≤ pc + 1 then m
      else (intRange (pc + 1) n.col).foldl
        (fun m col => pushGroupChild m pid pc col n) m) m

def skipEdgeGroups (rn : List RNode) (cls : List Cluster) : JMap String SkipGroup :=
  rn.foldl (addNodeSkipEdges rn cls) []

def realNodesAtCol (rn : List RNode) : JMap Int (List RNode) :=
  rn.foldl (fun m n => pushVal m n.col n) []

/-- Stable insertion of `x` after every element whose index is `≤ idx x` —
together with `sortByIdx` this reproduces JS's stable
`sort((a, b) => a.inputIdx - b.inputIdx)`. -/
def insertByIdx {α : Type} (idx : α → Nat) (x : α) : List α → List α
  | [] => [x]
  | y :: ys => if idx y ≤ idx x then y :: insertByIdx idx x ys else x :: y :: ys

def sortByIdx {α : Type} (idx : α → Nat) (l : List α) : List α :=
  l.foldl (fun acc x => insertByIdx idx x acc) []

/-- The `while (realNodePointer < ...)` loop at app.js lines 496-503,
acting on the remaining (suffix of the) sorted real-node list; returns the
new cluster index and the remaining suffix. -/
def scanReal : List RNode → Nat → Nat → Nat → Nat × List RNode
  | [], ci, _, _ => (ci, [])
  | r :: rest, ci, prevIdx, currIdx =>
    if r.inputIdx < currIdx then
      if prevIdx < r.inputIdx then (ci + 1, r :: rest)
      else scanReal rest ci prevIdx currIdx
    else (ci, r :: rest)

structure SynthState where
  phs : List Item
  phm : JMap String Item
  n2pc : JMap String Nat
  deriving Repr

/-- Record the placeholder-cluster index for one child and create the
placeholder for `(parentId, col, clusterIdx)` if it does not exist yet
(app.js, lines 506-520). -/
def processChild (pid : String) (pcol col : Int) (st : SynthState) (ci : Nat)
    (child : RNode) : SynthState :=
  let st1 : SynthState :=
    { st with n2pc := JMap.set st.n2pc (nKey child.id pid col) ci }
  let pk := phKeyStr pid col ci
  if JMap.has st1.phm pk then st1
  else
    let ph : Item :=
      { id := phTag ++ pk
        col := col
        inputIdx := child.inputIdx
        isPlaceholder := true
        clusterId := none
        parent := some (if col = pcol + 1 then pid
                        else phTag ++ phKeyStr pid (col - 1) ci) }
    { st1 with phs := st1.phs ++ [ph], phm := JMap.set st1.phm pk ph }

def processChildren (pid : String) (pcol col : Int) :
    List RNode → Option Nat → Nat → List RNode → SynthState → SynthState
  | [], _, _, _, st => st
  | c :: cs, prev?, ci, real, st =>
    let pr :=
      match prev? with
      | none => (ci, real)
      | some prevIdx => scanReal real ci prevIdx c.inputIdx
    let st' := processChild pid pcol col st pr.1 c
    processChildren pid pcol col cs (some c.inputIdx) pr.1 pr.2 st'

def processGroup (realAt : JMap Int (List RNode)) (st : SynthState)
    (g : SkipGroup) : SynthState :=
  let children := sortByIdx (fun n : RNode => n.inputIdx) g.children
  let real := sortByIdx (fun n : RNode => n.inputIdx) ((JMap.get realAt g.col).getD [])
  processChildren g.parentId g.parentCol g.col children none 0 real st

/-- Steps at app.js lines 442-522: build the skip-edge groups and process
them into placeholders, `placeholderMap` and `nodeToPlaceholderCluster`. -/
def synthesize (rn : List RNode) (cls : List Cluster) : SynthState :=
  (skipEdgeGroups rn cls).foldl
    (fun st pr => processGroup (realNodesAtCol rn) st pr.2)
    { phs := [], phm := [], n2pc := [] }

-- ── layoutParents (app.js, lines 524-550) ───────────────────────────────

def substParent (n2pc : JMap String Nat) (n : RNode) (pid : String)
    (pc : Int) : String :=
  if pc + 1 < n.col then
    phId pid (n.col - 1) ((JMap.get n2pc (nKey n.id pid (n.col - 1))).getD 0)
  else pid

def layoutParentsOf (rn : List RNode) (cls : List Cluster)
    (n2pc : JMap String Nat) (n : RNode) : List String :=
  n.parentIds.map (fun pid =>
    match clusterById cls pid with
    | some cm => substParent n2pc n pid cm.col
    | none =>
      match byIdR rn pid with
      | none => pid
      | some pn => substParent n2pc n pid pn.col)

def layoutParentsMap (rn : List RNode) (cls : List Cluster)
    (n2pc : JMap String Nat) : JMap String (List String) :=
  rn.foldl (fun m n => JMap.set m n.id (layoutParentsOf rn cls n2pc n)) []

/-- `layoutParents.get(item.id) || (item.parent ? [item.parent] : [])`. -/
def lpsOf (lpm : JMap String (List String)) (it : Item) : List String :=
  match JMap.get lpm it.id with
  | some l => l
  | none =>
    match it.parent with
    | some p => if p = "" then [] else [p]
    | none => []

-- ── allItems, columns, subtree heights ──────────────────────────────────

def toItem (n : RNode) : Item :=
  { id := n.id, col := n.col, inputIdx := n.inputIdx, isPlaceholder := false,
    clusterId := n.clusterId, parent := none }

def allItemsOf (rn : List RNode) (phs : List Item) : List Item :=
  rn.map toItem ++ phs

def columnsOf (items : List Item) : JMap Int (List Item) :=
  (items.foldl (fun m it => pushVal m it.col it) []).map
    (fun pr => (pr.1, sortByIdx (fun it : Item => it.inputIdx) pr.2))

def insertInt (x : Int) : List Int → List Int
  | [] => [x]
  | y :: ys => if y ≤ x then y :: insertInt x ys else x :: y :: ys

def sortedColsOf (cols : JMap Int (List Item)) : List Int :=
  (cols.map (fun pr => pr.1)).foldl (fun acc c => insertInt c acc) []

/-- `for (let col = maxCol; col >= 0; col--)`: `[m, m-1, ..., 0]` when the
maximum column `m` is defined and non-negative, else nothing. -/
def downRangeTo0 (maxCol : Option Int) : List Int :=
  match maxCol with
  | none => []
  | some m =>
    if m < 0 then [] else (List.range (m.toNat + 1)).map (fun i => m - (i : Int))

def childrenOfMap (lpm : JMap String (List String)) (items : List Item) :
    JMap String (List Item) :=
  items.foldl (fun m it =>
    (lpsOf lpm it).foldl (fun m pid => pushVal m pid it) m) []

/-- `subtreeHeight.get(id) || cfg.boxH`.  (Stored heights are sums of box
heights and gaps, hence always positive, so JS's falsy-`0` case of `||`
cannot occur.) -/
def hGet (hts : JMap String ℚ) (i : String) : ℚ :=
  (JMap.get hts i).getD cfg.boxH

/-- Step 3 (app.js, lines 579-604): right-to-left subtree heights. -/
def subtreeHeights (lpm : JMap String (List String))
    (cOf : JMap String (List Item)) (cols : JMap Int (List Item))
    (colList : List Int) : JMap String ℚ :=
  colList.foldl (fun hts col =>
    ((JMap.get cols col).getD []).foldl (fun hts it =>
      let children := (JMap.get cOf it.id).getD []
      let spc := children.filter (fun c => decide ((lpsOf lpm c).length = 1))
      if spc.isEmpty then JMap.set hts it.id cfg.boxH
      else if it.isPlaceholder then JMap.set hts it.id cfg.boxH
      else
        let chs := spc.map (fun c => hGet hts c.id)
        JMap.set hts it.id (chs.sum + ((spc.length : ℚ) - 1) * cfg.gapY)) hts) []

/-- Cluster subtree heights (app.js, lines 606-611). -/
def addClusterHeights (cls : List Cluster) (hts : JMap String ℚ) :
    JMap String ℚ :=
  cls.foldl (fun hts cm =>
    let ihs := cm.members.map (fun mid => hGet hts mid)
    JMap.set hts cm.id (ihs.sum + ((cm.members.length : ℚ) - 1) * cfg.gapY)) hts

-- ── Step 4: positioning ─────────────────────────────────────────────────

/-- The member-stacking loop shared by the cluster phase and by-parent
groups: `relY.set(id, currentY + h/2); currentY += h + gapY`. -/
def stackIds (hts : JMap String ℚ) :
    List String → ℚ → JMap String ℚ → JMap String ℚ
  | [], _, relY => relY
  | i :: rest, currentY, relY =>
    stackIds hts rest (currentY + hGet hts i + cfg.gapY)
      (JMap.set relY i (currentY + hGet hts i / 2))

/-- The centroid of a cluster's resolved parents (app.js, lines 618-624);
0 for a root cluster or when no parent is resolved. -/
def clusterParentCenterY (relY : JMap String ℚ) (cm : Cluster) : ℚ :=
  let pys := cm.parentIds.filterMap (fun pid => JMap.get relY pid)
  if cm.parentIds.isEmpty then 0
  else if pys.isEmpty then 0 else pys.sum / (pys.length : ℚ)

/-- `relY.set(cm.id, (firstItemY + lastItemY) / 2)` — the cluster-center
assignment shared by app.js lines 636-638 and 716-719.  A cluster with no
members would store `NaN` in JS; `NaN` is modelled by key absence. -/
def setClusterCenter (cm : Cluster) (relY1 : JMap String ℚ) :
    JMap String ℚ :=
  match cm.members.head?, cm.members.getLast? with
  | some m0, some mL =>
    match JMap.get relY1 m0, JMap.get relY1 mL with
    | some y0, some yL => JMap.set relY1 cm.id ((y0 + yL) / 2)
    | _, _ => relY1
  | _, _ => relY1

/-- Position one cluster's members as a stack (app.js, lines 617-639). -/
def stackMembers (hts : JMap String ℚ) (relY : JMap String ℚ) (cm : Cluster) :
    JMap String ℚ :=
  let total := (cm.members.map (fun mid => hGet hts mid)).sum +
    ((cm.members.length : ℚ) - 1) * cfg.gapY
  setClusterCenter cm
    (stackIds hts cm.members (clusterParentCenterY relY cm - total / 2) relY)

def clusterPhase (cls : List Cluster) (hts : JMap String ℚ) : JMap String ℚ :=
  cls.foldl (stackMembers hts) []

/-- The member-stacking loop over items: same scheme as `stackIds` but
driven by a list of items (app.js, lines 673-678). -/
def stackItems (hts : JMap String ℚ) :
    List Item → ℚ → JMap String ℚ → JMap String ℚ
  | [], _, relY => relY
  | it :: rest, currentY, relY =>
    stackItems hts rest (currentY + hGet hts it.id + cfg.gapY)
      (JMap.set relY it.id (currentY + hGet hts it.id / 2))

/-- `lps[0] || "__root__"`. -/
def parentKeyOf (lpm : JMap String (List String)) (it : Item) : String :=
  match lpsOf lpm it with
  | [] => rootKey
  | p :: _ => if p = "" then rootKey else p

def byParentOf (lpm : JMap String (List String)) (singles : List Item) :
    JMap String (List Item) :=
  singles.foldl (fun m it => pushVal m (parentKeyOf lpm it) it) []

/-- Stack one single-parent group centered on its parent (app.js,
lines 667-679). -/
def stackGroup (hts : JMap String ℚ) (relY : JMap String ℚ) (pid : String)
    (group : List Item) : JMap String ℚ :=
  let parentCenterY : ℚ :=
    if pid ≠ rootKey ∧ (JMap.get relY pid).isSome
    then (JMap.get relY pid).getD 0 else 0
  let hs := group.map (fun it => hGet hts it.id)
  let total := hs.sum + ((group.length : ℚ) - 1) * cfg.gapY
  stackItems hts group (parentCenterY - total / 2) relY

/-- Center a multi-parent item on the mean of its resolved parents
(app.js, lines 681-690). -/
def setCentroid (lpm : JMap String (List String)) (relY : JMap String ℚ)
    (it : Item) : JMap String ℚ :=
  let pys := (lpsOf lpm it).filterMap (fun pid => JMap.get relY pid)
  if pys.isEmpty then JMap.set relY it.id 0
  else JMap.set relY it.id (pys.sum / (pys.length : ℚ))

/-- `items.forEach` at app.js lines 647-657: cluster members (those with a
`layout._clusterId`) are skipped... -/
def actOf (items : List Item) : List Item :=
  items.filter (fun it => it.clusterId.isNone)

/-- ...single-layout-parent items... -/
def singlesOf (lpm : JMap String (List String)) (items : List Item) :
    List Item :=
  (actOf items).filter (fun it => decide ((lpsOf lpm it).length ≤ 1))

/-- ...and multi-layout-parent items. -/
def multisOf (lpm : JMap String (List String)) (items : List Item) :
    List Item :=
  (actOf items).filter (fun it => decide (¬ (lpsOf lpm it).length ≤ 1))

/-- Initial placement of one column, before its collision sweep (app.js,
lines 644-690): cluster members are skipped, single-layout-parent items are
grouped by parent and stacked, multi-parent items are centered on their
parents' centroid. -/
def placeColumn (lpm : JMap String (List String)) (hts : JMap String ℚ)
    (relY : JMap String ℚ) (items : List Item) : JMap String ℚ :=
  (multisOf lpm items).foldl (setCentroid lpm)
    ((byParentOf lpm (singlesOf lpm items)).foldl
      (fun r pr => stackGroup hts r pr.1 pr.2) relY)

/-- `for (let j = i; j < allColItems.length; j++) relY.set(..., +overlap)`.
(Shifting an id that has no entry would store `NaN` in JS; `NaN` is
modelled by key absence throughout.) -/
def shiftItems (over : ℚ) (items : List Item) (relY : JMap String ℚ) :
    JMap String ℚ :=
  items.foldl (fun m it =>
    match JMap.get m it.id with
    | some v => JMap.set m it.id (v + over)
    | none => m) relY

/-- The collision-resolution sweep of one column (app.js, lines 692-712). -/
def sweepGo (relY : JMap String ℚ) (prev : Item) : List Item → JMap String ℚ
  | [] => relY
  | curr :: rest =>
    match JMap.get relY prev.id, JMap.get relY curr.id with
    | some py, some cy =>
      let overlap := (py + cfg.boxH / 2) + cfg.gapY - (cy - cfg.boxH / 2)
      if 0 < overlap then sweepGo (shiftItems overlap (curr :: rest) relY) curr rest
      else sweepGo relY curr rest
    | _, _ => sweepGo relY curr rest

def sweepColumn (relY : JMap String ℚ) (items : List Item) : JMap String ℚ :=
  match sortByIdx (fun it : Item => it.inputIdx) items with
  | [] => relY
  | first :: rest => sweepGo relY first rest

/-- The left-to-right column loop (app.js, lines 641-713): place each
column, then sweep it. -/
def columnsPhase (lpm : JMap String (List String)) (hts : JMap String ℚ)
    (cols : JMap Int (List Item)) (sorted : List Int)
    (relY0 : JMap String ℚ) : JMap String ℚ :=
  sorted.foldl (fun relY c =>
    let items := (JMap.get cols c).getD []
    sweepColumn (placeColumn lpm hts relY items) items) relY0

/-- Recenter clusters after the sweep (app.js, lines 715-720). -/
def updateClusterCenters (cls : List Cluster) (relY : JMap String ℚ) :
    JMap String ℚ :=
  cls.foldl (fun relY cm => setClusterCenter cm relY) relY

def minRelY : JMap String ℚ → ℚ
  | [] => 0
  | p :: rest => rest.foldl (fun acc pr => min acc pr.2) p.2

-- ── Step 5: absolute positions and cluster boxes ────────────────────────

def buildPos (relY : JMap String ℚ) (off : ℚ) (items : List Item) :
    JMap String PosEntry :=
  items.foldl (fun pos it =>
    match JMap.get relY it.id with
    | none => pos
    | some cy =>
      JMap.set pos it.id
        { x := cfg.marginX + (it.col : ℚ) * (cfg.boxW + cfg.gapX)
          y := cy + off - cfg.boxH / 2
          col := it.col
          centerY := cy + off
          isPlaceholder := it.isPlaceholder
          isCluster := false }) []

def minListQ : List ℚ → ℚ
  | [] => 0
  | x :: xs => xs.foldl min x

def maxListQ : List ℚ → ℚ
  | [] => 0
  | x :: xs => xs.foldl max x

/-- The bounding-box entry stored for a cluster, with `x` as computed at
app.js line 745 inlined into each field. -/
def clusterEntry (cm : Cluster) (minY maxY centerY : ℚ) : PosEntry :=
  { x := cfg.marginX + (cm.col : ℚ) * (cfg.boxW + cfg.gapX) - cfg.clusterPad
    y := minY - cfg.clusterPad
    col := cm.col
    centerY := centerY
    isPlaceholder := false
    isCluster := true
    clusterW := cfg.boxW + cfg.clusterPad * 2
    clusterH := (maxY - minY) + cfg.clusterPad * 2
    clusterRight := cfg.marginX + (cm.col : ℚ) * (cfg.boxW + cfg.gapX) +
      cfg.boxW + cfg.clusterPad
    clusterLeft := cfg.marginX + (cm.col : ℚ) * (cfg.boxW + cfg.gapX) -
      cfg.clusterPad }

/-- One iteration of the cluster bounding-box loop (app.js, lines 743-761):
skip the cluster when no member is positioned. -/
def addClusterBox (relY : JMap String ℚ) (off : ℚ)
    (pos : JMap String PosEntry) (cm : Cluster) : JMap String PosEntry :=
  let ips := cm.members.filterMap (fun mid => JMap.get pos mid)
  if ips.isEmpty then pos
  else
    JMap.set pos cm.id
      (clusterEntry cm (minListQ (ips.map (fun p => p.y)))
        (maxListQ (ips.map (fun p => p.y + cfg.boxH)))
        ((JMap.get relY cm.id).getD 0 + off))

/-- Cluster bounding boxes (app.js, lines 742-761). -/
def addClusterBoxes (cls : List Cluster) (relY : JMap String ℚ) (off : ℚ)
    (pos0 : JMap String PosEntry) : JMap String PosEntry :=
  cls.foldl (addClusterBox relY off) pos0

/-- The stages of `computePositions` after column resolution, named so each
can be reasoned about: the layout-parents map... -/
def pipeLpm (rn : List RNode) (cls : List Cluster) : JMap String (List String) :=
  layoutParentsMap rn cls (synthesize rn cls).n2pc

/-- ...`allItems` (real nodes plus placeholders)... -/
def pipeItems (rn : List RNode) (cls : List Cluster) : List Item :=
  allItemsOf rn (synthesize rn cls).phs

def pipeCols (rn : List RNode) (cls : List Cluster) : JMap Int (List Item) :=
  columnsOf (pipeItems rn cls)

def pipeSorted (rn : List RNode) (cls : List Cluster) : List Int :=
  sortedColsOf (pipeCols rn cls)

/-- ...subtree heights including cluster heights... -/
def pipeHts (rn : List RNode) (cls : List Cluster) : JMap String ℚ :=
  addClusterHeights cls
    (subtreeHeights (pipeLpm rn cls)
      (childrenOfMap (pipeLpm rn cls) (pipeItems rn cls)) (pipeCols rn cls)
      (downRangeTo0 (pipeSorted rn cls).getLast?))

/-- ...the final relative-Y map (cluster stacks, column loop with sweeps,
cluster recentering)... -/
def pipeRelY (rn : List RNode) (cls : List Cluster) : JMap String ℚ :=
  updateClusterCenters cls
    (columnsPhase (pipeLpm rn cls) (pipeHts rn cls) (pipeCols rn cls)
      (pipeSorted rn cls) (clusterPhase cls (pipeHts rn cls)))

/-- ...and the vertical offset to absolute coordinates. -/
def pipeOff (rn : List RNode) (cls : List Cluster) : ℚ :=
  cfg.marginY + cfg.boxH / 2 - minRelY (pipeRelY rn cls)

/-- The whole of `computePositions` after column resolution, as a pure
function of the resolved nodes and the cluster list. -/
def corePositions (rn : List RNode) (cls : List Cluster) :
    JMap String PosEntry × JMap String Nat :=
  (addClusterBoxes cls (pipeRelY rn cls) (pipeOff rn cls)
    (buildPos (pipeRelY rn cls) (pipeOff rn cls) (pipeItems rn cls)),
   (synthesize rn cls).n2pc)

/-- `computePositions` (app.js, lines 426-764), returning the position map,
`nodeToPlaceholderCluster`, and the node list mutated by `resolveColumns`. -/
def computePositionsM (fuel : Nat) (nodes : List Node) (cls : List Cluster) :
    Option ((JMap String PosEntry × JMap String Nat) × List Node) :=
  (resolveColumns fuel nodes).map
    (fun nodes2 => (corePositions (enrich nodes2) cls, nodes2))

def computePositions (fuel : Nat) (nodes : List Node) (cls : List Cluster) :
    Option (JMap String PosEntry × JMap String Nat) :=
  (computePositionsM fuel nodes cls).map (fun pr => pr.1)

-- ════════════════════════════════════════════════════════════════════════
-- Helper lemmas about byId / getCol
-- ════════════════════════════════════════════════════════════════════════

theorem byId_mem {nodes : List Node} {i : String} {n : Node}
    (h : byId nodes i = some n) : n ∈ nodes ∧ n.id = i := by
  unfold byId at h
  have h1 := List.mem_of_find?_eq_some h
  have h2 := List.find?_some h
  exact ⟨List.mem_reverse.mp h1, by simpa using h2⟩

theorem byId_isSome_of_mem {nodes : List Node} {n : Node} (h : n ∈ nodes) :
    ∃ m, byId nodes n.id = some m ∧ m.id = n.id := by
  have hs : (List.find? (fun nd => decide (nd.id = n.id)) nodes.reverse).isSome := by
    rw [List.find?_isSome]
    exact ⟨n, List.mem_reverse.mpr h, by simp⟩
  obtain ⟨m, hm⟩ := Option.isSome_iff_exists.mp hs
  have := List.find?_some hm
  exact ⟨m, hm, by simpa using this⟩

theorem byId_of_nodup {nodes : List Node} {n : Node}
    (hnd : (nodes.map Node.id).Nodup) (h : n ∈ nodes) :
    byId nodes n.id = some n := by
  obtain ⟨m, hm, hmid⟩ := byId_isSome_of_mem h
  have hmem := (byId_mem hm).1
  have heq : m = n := List.inj_on_of_nodup_map hnd hmem h hmid
  rw [heq] at hm; exact hm

theorem getCol_mono (nodes : List Node) :
    ∀ fuel fuel2 i c, fuel ≤ fuel2 → getCol nodes fuel i = some c →
      getCol nodes fuel2 i = some c := by
  intro fuel
  induction fuel with
  | zero => intro fuel2 i c _ h; simp [getCol] at h
  | succ f ih =>
    intro fuel2 i c hle h
    obtain ⟨f2, rfl⟩ : ∃ f2, fuel2 = f2 + 1 := by
      cases fuel2 with
      | zero => omega
      | succ f2 => exact ⟨f2, rfl⟩
    rw [getCol] at h ⊢
    cases hb : byId nodes i with
    | none => rw [hb] at h; exact h
    | some node =>
      rw [hb] at h
      dsimp only at h ⊢
      cases hc : layoutCol node with
      | some c' => rw [hc] at h; exact h
      | none =>
        rw [hc] at h
        dsimp only at h ⊢
        cases hp : getLayoutParentIds node with
        | nil => rw [hp] at h; exact h
        | cons p ps =>
          rw [hp] at h
          dsimp only at h ⊢
          obtain ⟨pc, hpc, hcc⟩ := Option.map_eq_some'.mp h
          rw [ih f2 p pc (by omega) hpc]
          simpa using hcc

theorem resolveList_isSome {nodes : List Node} {fuel : Nat} :
    ∀ {l l' : List Node}, resolveList nodes fuel l = some l' →
      ∀ n ∈ l, ∃ c, getCol nodes fuel n.id = some c := by
  intro l
  induction l with
  | nil => intro l' _ n hn; cases hn
  | cons x xs ih =>
    intro l' h n hn
    rw [resolveList] at h
    cases hx : getCol nodes fuel x.id with
    | none => rw [hx] at h; cases h
    | some c =>
      rw [hx] at h
      obtain ⟨rs, hrs, _⟩ := Option.map_eq_some'.mp h
      cases hn with
      | head => exact ⟨c, hx⟩
      | tail _ hn => exact ih hrs n hn

theorem resolveList_eq_map {nodes : List Node} {fuel : Nat} :
    ∀ {l l' : List Node}, resolveList nodes fuel l = some l' →
      l' = l.map (fun n => writeBack n ((getCol nodes fuel n.id).getD 0)) := by
  intro l
  induction l with
  | nil => intro l' h; rw [resolveList] at h; cases h; rfl
  | cons x xs ih =>
    intro l' h
    rw [resolveList] at h
    cases hx : getCol nodes fuel x.id with
    | none => rw [hx] at h; cases h
    | some c =>
      rw [hx] at h
      obtain ⟨rs, hrs, hl'⟩ := Option.map_eq_some'.mp h
      subst hl'
      simp [ih hrs, hx]

theorem resolveList_of_forall {nodes : List Node} {fuel : Nat}
    (cfun : Node → Int) :
    ∀ {l : List Node}, (∀ n ∈ l, getCol nodes fuel n.id = some (cfun n)) →
      resolveList nodes fuel l = some (l.map (fun n => writeBack n (cfun n))) := by
  intro l
  induction l with
  | nil => intro _; rfl
  | cons x xs ih =>
    intro h
    rw [resolveList, h x (by simp)]
    rw [ih (fun n hn => h n (by simp [hn]))]
    rfl

-- ════════════════════════════════════════════════════════════════════════
-- C1: column resolution matches the spec's reference definition
-- ════════════════════════════════════════════════════════════════════════

/-- The spec's reference definition of column resolution, stated as a
property of a resolved-column assignment: an explicit column wins;
otherwise, an entity with at least one parent (whose first listed parent is
present in the entity set) sits at its first parent's resolved column plus
its offset (default 1); an entity with no parents and no explicit column
sits at column 0. -/
def FollowsSpecColumns (nodes : List Node) (resolved : String → Int) : Prop :=
  ∀ n ∈ nodes,
    (∀ c, layoutCol n = some c → resolved n.id = c) ∧
    (layoutCol n = none → ∀ p ps, getLayoutParentIds n = p :: ps →
      (∃ pn ∈ nodes, pn.id = p) → resolved n.id = resolved p + offsetOf n) ∧
    (layoutCol n = none → getLayoutParentIds n = [] → resolved n.id = 0)

/-- C1: for every entity, the column computed by `resolveColumns` satisfies
the spec's reference definition: an explicit `layout.col` is used as is;
otherwise the resolved column is the first listed parent's resolved column
plus the entity's offset (default 1); an entity with no parents and no
explicit column resolves to column 0.  (Hypotheses: ids are unique and the
recursive resolution terminates, i.e. `resolveColumns` succeeds.) -/
theorem claim_C1_resolveColumns_follows_spec (fuel : Nat) (nodes : List Node)
    (hnd : (nodes.map Node.id).Nodup)
    (hres : (resolveColumns fuel nodes).isSome) :
    FollowsSpecColumns nodes (fun i => (getCol nodes fuel i).getD 0) := by
  obtain ⟨nodes2, hres⟩ := Option.isSome_iff_exists.mp hres
  intro n hn
  obtain ⟨c, hc⟩ := resolveList_isSome hres n hn
  have hbid : byId nodes n.id = some n := byId_of_nodup hnd hn
  obtain ⟨f, rfl⟩ : ∃ f, fuel = f + 1 := by
    cases hf : fuel with
    | zero => rw [hf] at hc; simp [getCol] at hc
    | succ f => exact ⟨f, rfl⟩
  refine ⟨?_, ?_, ?_⟩
  · intro c' hcol
    rw [getCol, hbid] at hc
    dsimp only at hc
    rw [hcol] at hc
    simp only [Option.some.injEq] at hc
    simp [getCol, hbid, hcol, ← hc]
  · intro hcol p ps hp hex
    rw [getCol, hbid] at hc
    dsimp only at hc
    rw [hcol] at hc
    dsimp only at hc
    rw [hp] at hc
    dsimp only at hc
    obtain ⟨pc, hpc, hcc⟩ := Option.map_eq_some'.mp hc
    have hpc2 : getCol nodes (f + 1) p = some pc :=
      getCol_mono nodes f (f + 1) p pc (by omega) hpc
    have hcfull : getCol nodes (f + 1) n.id = some c := by
      rw [getCol, hbid]
      dsimp only
      rw [hcol]
      dsimp only
      rw [hp]
      dsimp only
      rw [hpc]
      simpa using hcc
    simp only [hcfull, hpc2, Option.getD_some]
    omega
  · intro hcol hp
    rw [getCol, hbid] at hc
    dsimp only at hc
    rw [hcol] at hc
    dsimp only at hc
    rw [hp] at hc
    simp only [Option.some.injEq] at hc
    simp [getCol, hbid, hcol, hp, ← hc]

def c1n1 : Node := { id := "A", layout := some Layout.empty }

def c1n2 : Node :=
  { id := "B", layout := some { Layout.empty with parent := some "A", offset := some 2 } }

/-- Witness for C1 on the spec's scenario-like input: `A` a root, `B` with
parent `A` and offset 2. -/
theorem claim_C1_witness :
    FollowsSpecColumns [c1n1, c1n2]
      (fun i => (getCol [c1n1, c1n2] 3 i).getD 0) :=
  claim_C1_resolveColumns_follows_spec 3 [c1n1, c1n2] (by decide) (by decide)

-- ════════════════════════════════════════════════════════════════════════
-- C6: dangling parent reference
-- ════════════════════════════════════════════════════════════════════════

def c6node : Node :=
  { id := "a", layout := some { Layout.empty with parent := some "zzz" } }

/-- C6 counterexample: an entity `a` with no explicit column whose only
parent reference (`zzz`) is dangling resolves to column 1 (the default
offset), not to column 0 as the claim states: the code treats the *missing
parent* as sitting at column 0 and still adds the offset.  (`resolveColumns`
also emits no warning — it has no warning path at all.) -/
theorem claim_C6_counterexample :
    getCol [c6node] 2 "a" = some 1 ∧ getCol [c6node] 2 "a" ≠ some 0 := by
  decide

/-- C6 (amended): an entity with no explicit column whose first parent
reference is dangling is resolved as if that parent sat at column 0: the
entity resolves to `0 + offset` (default offset 1, hence column 1), and the
resolution returns normally rather than aborting or throwing;
`resolveColumns` emits no warning. -/
theorem claim_C6_dangling_parent (nodes : List Node) (fuel : Nat) (i : String)
    (n : Node) (hn : byId nodes i = some n) (hcol : layoutCol n = none)
    (p : String) (ps : List String) (hp : getLayoutParentIds n = p :: ps)
    (hd : byId nodes p = none) :
    getCol nodes (fuel + 2) i = some (0 + offsetOf n) := by
  rw [getCol, hn]
  dsimp only
  rw [hcol]
  dsimp only
  rw [hp]
  dsimp only
  rw [getCol, hd]
  rfl

/-- Witness for C6 (amended) at the counterexample input. -/
theorem claim_C6_witness : getCol [c6node] 2 "a" = some (0 + offsetOf c6node) :=
  claim_C6_dangling_parent [c6node] 0 "a" c6node (by decide) (by decide)
    "zzz" [] (by decide) (by decide)

-- ════════════════════════════════════════════════════════════════════════
-- C7: non-negativity of resolved columns
-- ════════════════════════════════════════════════════════════════════════

def c7node : Node :=
  { id := "b", layout := some { Layout.empty with col := some (-1) } }

/-- C7 counterexample: an entity declaring the explicit column `-1`
resolves to `-1`, which is negative — `resolveColumns` never clamps or
rejects columns, so resolved columns are not non-negative for every
input. -/
theorem claim_C7_counterexample :
    getCol [c7node] 1 "b" = some (-1) ∧ ¬ (0 : Int) ≤ -1 := by
  decide

/-- C7 (amended): provided every explicitly declared column and every
declared offset in the input is non-negative, every resolved column
produced by column resolution is non-negative.  (Clusters are not resolved
by `resolveColumns` at all — `computePositions` reads a cluster's column
directly off the cluster record — so a cluster's column is non-negative
exactly when the input declares it so.) -/
theorem claim_C7_columns_nonneg (nodes : List Node)
    (hcols : ∀ n ∈ nodes, 0 ≤ (layoutCol n).getD 0)
    (hoffs : ∀ n ∈ nodes, 0 ≤ offsetOf n) :
    ∀ fuel i c, getCol nodes fuel i = some c → 0 ≤ c := by
  intro fuel
  induction fuel with
  | zero => intro i c h; simp [getCol] at h
  | succ f ih =>
    intro i c h
    rw [getCol] at h
    cases hb : byId nodes i with
    | none =>
      rw [hb] at h
      simp only [Option.some.injEq] at h
      omega
    | some node =>
      rw [hb] at h
      dsimp only at h
      obtain ⟨hmem, _⟩ := byId_mem hb
      cases hc : layoutCol node with
      | some c' =>
        rw [hc] at h
        simp only [Option.some.injEq] at h
        have := hcols node hmem
        rw [hc] at this
        simp only [Option.getD_some] at this
        omega
      | none =>
        rw [hc] at h
        dsimp only at h
        cases hp : getLayoutParentIds node with
        | nil =>
          rw [hp] at h
          simp only [Option.some.injEq] at h
          omega
        | cons p ps =>
          rw [hp] at h
          dsimp only at h
          obtain ⟨pc, hpc, hcc⟩ := Option.map_eq_some'.mp h
          have h1 := ih p pc hpc
          have h2 := hoffs node hmem
          omega

/-- Witness for C7 (amended): on the two-node input `A`, `B` every column
resolves non-negatively; `B` resolves to 2. -/
theorem claim_C7_witness : (0 : Int) ≤ 2 :=
  claim_C7_columns_nonneg [c1n1, c1n2] (by decide) (by decide) 3 "B" 2
    (by decide)

-- ════════════════════════════════════════════════════════════════════════
-- C10: routeEdge on missing endpoints; minimum polyline size
-- ════════════════════════════════════════════════════════════════════════

/-- C10: if either endpoint id has no entry in the position map, `routeEdge`
returns the empty point list (the edge is silently dropped, nothing is
thrown); consequently every polyline it returns is either empty or has at
least four points. -/
theorem claim_C10_routeEdge_total (parentId childId : String)
    (pos : JMap String PosEntry) (m : JMap String Nat) :
    ((JMap.get pos parentId = none ∨ JMap.get pos childId = none) →
      routeEdge parentId childId pos m = []) ∧
    (routeEdge parentId childId pos m = [] ∨
      4 ≤ (routeEdge parentId childId pos m).length) := by
  constructor
  · intro h
    unfold routeEdge
    rcases h with h | h
    · rw [h]
    · rw [h]
      cases JMap.get pos parentId <;> rfl
  · unfold routeEdge
    cases hp : JMap.get pos parentId with
    | none => left; cases JMap.get pos childId <;> rfl
    | some p =>
      cases hc : JMap.get pos childId with
      | none => left; rfl
      | some c =>
        right
        dsimp only
        cases hws : collectWaypoints parentId childId pos m p.col c.col with
        | nil => rfl
        | cons w0 rest =>
          simp only [List.length_cons, List.length_append]
          omega

/-- Witness for C10: with an empty position map the polyline is empty, and
the length disjunction holds. -/
theorem claim_C10_witness :
    routeEdge "a" "b" ([] : JMap String PosEntry) ([] : JMap String Nat) = [] ∧
    (routeEdge "a" "b" ([] : JMap String PosEntry) ([] : JMap String Nat) = [] ∨
      4 ≤ (routeEdge "a" "b" ([] : JMap String PosEntry) ([] : JMap String Nat)).length) :=
  ⟨(claim_C10_routeEdge_total "a" "b" [] []).1 (Or.inl rfl),
   (claim_C10_routeEdge_total "a" "b" [] []).2⟩

-- ════════════════════════════════════════════════════════════════════════
-- C8: endpoints and orthogonality of routed polylines
-- ════════════════════════════════════════════════════════════════════════

/-- Two consecutive polyline points lie on a common vertical or horizontal
line. -/
def OrthStep (a b : Pt) : Prop := a.x = b.x ∨ a.y = b.y

theorem wpSegments_head_y (ws : List PosEntry) (y0 : ℚ) (z : Pt)
    (zs : List Pt) (hz : z.y = (wpSegments ws y0).2) :
    ∀ q ∈ ((wpSegments ws y0).1 ++ (z :: zs)).head?, q.y = y0 := by
  cases ws with
  | nil =>
    intro q hq
    simp [wpSegments] at hq hz
    rw [← hq]
    exact hz
  | cons wp rest =>
    intro q hq
    simp [wpSegments] at hq
    rw [← hq]

theorem wpSegments_chain (ws : List PosEntry) (y0 : ℚ) (z : Pt)
    (zs : List Pt) (hz : z.y = (wpSegments ws y0).2)
    (hzs : List.Chain' OrthStep (z :: zs)) :
    List.Chain' OrthStep ((wpSegments ws y0).1 ++ (z :: zs)) := by
  induction ws generalizing y0 with
  | nil => exact hzs
  | cons wp rest ih =>
    have hz' : z.y = (wpSegments rest wp.centerY).2 := by
      simpa [wpSegments] using hz
    have htail := ih wp.centerY hz'
    simp only [wpSegments, List.cons_append]
    refine List.chain'_cons'.mpr ⟨?_, List.chain'_cons'.mpr ⟨?_, htail⟩⟩
    · intro q hq
      simp only [List.head?_cons, Option.mem_def, Option.some.injEq] at hq
      left; rw [← hq]
    · intro q hq
      right
      exact (wpSegments_head_y rest wp.centerY z zs hz' q hq).symm

/-- C8: whenever both endpoints are present in the position map, the
polyline returned by `routeEdge` starts at the parent's right-mid point
(the cluster's right boundary at its center height when the parent is a
cluster), ends at the child's left-mid point, and is strictly orthogonal:
every pair of consecutive points shares an x or a y coordinate. -/
theorem claim_C8_routeEdge_orthogonal (parentId childId : String)
    (pos : JMap String PosEntry) (m : JMap String Nat) (p c : PosEntry)
    (hp : JMap.get pos parentId = some p) (hc : JMap.get pos childId = some c) :
    (routeEdge parentId childId pos m).head? = some (midRight p) ∧
    (routeEdge parentId childId pos m).getLast? = some (midLeft c) ∧
    List.Chain' OrthStep (routeEdge parentId childId pos m) := by
  unfold routeEdge
  rw [hp, hc]
  dsimp only
  cases hws : collectWaypoints parentId childId pos m p.col c.col with
  | nil =>
    refine ⟨rfl, rfl, ?_⟩
    refine List.Chain'.cons ?_ (List.Chain'.cons ?_
      (List.Chain'.cons ?_ (List.chain'_singleton _)))
    · right; rfl
    · left; rfl
    · right; rfl
  | cons w0 rest =>
    refine ⟨rfl, ?_, ?_⟩
    · show (midRight p :: ((wpSegments (w0 :: rest) (midRight p).y).1 ++
        [_, _, midLeft c])).getLast? = some (midLeft c)
      rw [show midRight p :: ((wpSegments (w0 :: rest) (midRight p).y).1 ++
          [⟨betweenColsX ((w0 :: rest).getLast (List.cons_ne_nil w0 rest)).col c.col,
            (wpSegments (w0 :: rest) (midRight p).y).2⟩,
           ⟨betweenColsX ((w0 :: rest).getLast (List.cons_ne_nil w0 rest)).col c.col,
            (midLeft c).y⟩, midLeft c]) =
        (midRight p :: ((wpSegments (w0 :: rest) (midRight p).y).1 ++
          [⟨betweenColsX ((w0 :: rest).getLast (List.cons_ne_nil w0 rest)).col c.col,
            (wpSegments (w0 :: rest) (midRight p).y).2⟩,
           ⟨betweenColsX ((w0 :: rest).getLast (List.cons_ne_nil w0 rest)).col c.col,
            (midLeft c).y⟩])) ++ [midLeft c] from by simp]
      exact List.getLast?_concat _
    · refine List.chain'_cons'.mpr ⟨?_, ?_⟩
      · intro q hq
        right
        exact (wpSegments_head_y (w0 :: rest) (midRight p).y _ _ rfl q hq).symm
      · refine wpSegments_chain (w0 :: rest) (midRight p).y _ _ rfl ?_
        refine List.Chain'.cons ?_ (List.Chain'.cons ?_ (List.chain'_singleton _))
        · left; rfl
        · right; rfl

def c8p : PosEntry := { x := 60, y := 60, col := 0, centerY := 100 }

def c8c : PosEntry := { x := 364, y := 160, col := 1, centerY := 200 }

def c8pos : JMap String PosEntry := [("a", c8p), ("b", c8c)]

/-- Witness for C8 on a concrete two-entry position map. -/
theorem claim_C8_witness :
    (routeEdge "a" "b" c8pos []).head? = some (midRight c8p) ∧
    (routeEdge "a" "b" c8pos []).getLast? = some (midLeft c8c) ∧
    List.Chain' OrthStep (routeEdge "a" "b" c8pos []) :=
  claim_C8_routeEdge_orthogonal "a" "b" c8pos [] c8p c8c (by decide) (by decide)

-- ════════════════════════════════════════════════════════════════════════
-- C5: determinism / idempotence under the in-place column write-back
-- ════════════════════════════════════════════════════════════════════════

theorem writeBack_id (n : Node) (c : Int) : (writeBack n c).id = n.id := rfl

theorem layoutCol_writeBack (n : Node) (c : Int) :
    layoutCol (writeBack n c) = some c := by
  cases n with
  | mk i l => cases l <;> rfl

theorem writeBack_writeBack (n : Node) (c : Int) :
    writeBack (writeBack n c) c = writeBack n c := by
  cases n with
  | mk i l => cases l <;> rfl

theorem byId_map_id_preserving (nodes : List Node) (g : Node → Node)
    (hid : ∀ n, (g n).id = n.id) (i : String) :
    byId (nodes.map g) i = (byId nodes i).map g := by
  unfold byId
  rw [← List.map_reverse]
  induction nodes.reverse with
  | nil => rfl
  | cons x xs ih =>
    simp only [List.map_cons, List.find?]
    by_cases hx : x.id = i
    · simp [hid, hx]
    · simp [hid, hx, ih]

/-- C5: the layout pipeline is deterministic and, despite `resolveColumns`
mutating resolved columns back onto the input nodes, re-running
`computePositions` on the mutated nodes reproduces exactly the same
position map and placeholder assignment — hence `routeEdge` yields
identical polylines for every edge on the second run.  (Determinism per se
is definitional here: the model is a pure function of its input; this
theorem proves the non-trivial half, stability under the write-back.) -/
theorem claim_C5_pipeline_deterministic (fuel fuel2 : Nat)
    (nodes nodes2 : List Node) (cls : List Cluster)
    (out : JMap String PosEntry × JMap String Nat)
    (h : computePositionsM fuel nodes cls = some (out, nodes2))
    (hf : 1 ≤ fuel2) :
    computePositionsM fuel2 nodes2 cls = some (out, nodes2) ∧
    ∀ pid cid, (computePositions fuel2 nodes2 cls).map
        (fun pr => routeEdge pid cid pr.1 pr.2) =
      some (routeEdge pid cid out.1 out.2) := by
  unfold computePositionsM at h
  obtain ⟨nres, hres, hout⟩ := Option.map_eq_some'.mp h
  obtain ⟨hout1, hout2⟩ : corePositions (enrich nres) cls = out ∧ nres = nodes2 := by
    constructor
    · exact congrArg Prod.fst hout
    · exact congrArg Prod.snd hout
  subst hout2
  have hmap : nres = nodes.map
      (fun n => writeBack n ((getCol nodes fuel n.id).getD 0)) :=
    resolveList_eq_map hres
  obtain ⟨f2, rfl⟩ : ∃ f2, fuel2 = f2 + 1 := by
    cases fuel2 with
    | zero => omega
    | succ f2 => exact ⟨f2, rfl⟩
  have hconv : ∀ n' ∈ nres,
      getCol nres (f2 + 1) n'.id = some ((layoutCol n').getD 0) := by
    intro n' hn'
    obtain ⟨m', hm', hm'id⟩ := byId_isSome_of_mem hn'
    have hm'mem := (byId_mem hm').1
    obtain ⟨n, hnmem, hn'eq⟩ := List.mem_map.mp (hmap ▸ hn')
    obtain ⟨m, hmmem, hm'eq⟩ := List.mem_map.mp (hmap ▸ hm'mem)
    have hids : m.id = n.id := by
      have h1 : m'.id = m.id := by rw [← hm'eq]; exact writeBack_id m _
      have h2 : n'.id = n.id := by rw [← hn'eq]; exact writeBack_id n _
      rw [← h1, ← h2, hm'id]
    have hcolm' : layoutCol m' = some ((getCol nodes fuel m.id).getD 0) := by
      rw [← hm'eq, layoutCol_writeBack]
    have hcoln' : layoutCol n' = some ((getCol nodes fuel n.id).getD 0) := by
      rw [← hn'eq, layoutCol_writeBack]
    rw [getCol, hm']
    dsimp only
    rw [hcolm']
    dsimp only
    rw [hcoln', hids]
    simp
  have hres2 : resolveColumns (f2 + 1) nres = some nres := by
    unfold resolveColumns
    rw [resolveList_of_forall (fun n' => (layoutCol n').getD 0) hconv]
    congr 1
    have : ∀ n' ∈ nres,
        writeBack n' ((layoutCol n').getD 0) = n' := by
      intro n' hn'
      obtain ⟨n, hnmem, hn'eq⟩ := List.mem_map.mp (hmap ▸ hn')
      rw [← hn'eq, layoutCol_writeBack, Option.getD_some, writeBack_writeBack]
    calc nres.map (fun n' => writeBack n' ((layoutCol n').getD 0))
        = nres.map id := List.map_congr_left this
      _ = nres := List.map_id nres
  have henr : enrich nres = enrich nres := rfl
  constructor
  · unfold computePositionsM
    rw [hres2]
    simp only [Option.map_some']
    rw [hout1]
  · intro pid cid
    unfold computePositions computePositionsM
    rw [hres2]
    simp only [Option.map_some']
    rw [hout1]

def c5nodes : List Node := [c1n1, c1n2]

def c5mut : List Node := [writeBack c1n1 0, writeBack c1n2 2]

/-- Witness for C5: on the concrete input `A`, `B` the first run mutates the
nodes into `c5mut`; re-running the pipeline on `c5mut` (with any positive
fuel) returns the identical output and leaves the nodes unchanged. -/
theorem claim_C5_witness :
    computePositionsM 1 c5mut [] = some (corePositions (enrich c5mut) [], c5mut) :=
  (claim_C5_pipeline_deterministic 3 1 c5nodes c5mut []
    (corePositions (enrich c5mut) []) (by rfl) (by decide)).1

-- ════════════════════════════════════════════════════════════════════════
-- Map-update bookkeeping lemmas for the positioning phases
-- ════════════════════════════════════════════════════════════════════════

theorem JMap.get_mem {κ α : Type} [DecidableEq κ] {m : JMap κ α} {k : κ}
    {v : α} (h : JMap.get m k = some v) : (k, v) ∈ m := by
  induction m with
  | nil => simp [JMap.get] at h
  | cons p rest ih =>
    rw [JMap.get] at h
    by_cases hp : p.1 = k
    · rw [if_pos hp] at h
      simp only [Option.some.injEq] at h
      have hpv : p = (k, v) := by
        obtain ⟨p1, p2⟩ := p
        simp only at hp h
        rw [hp, h]
      rw [← hpv]
      exact List.mem_cons_self p rest
    · rw [if_neg hp] at h
      exact List.mem_cons_of_mem p (ih h)

theorem JMap.mem_set {κ α : Type} [DecidableEq κ] {m : JMap κ α} {k : κ}
    {v : α} {pr : κ × α} (h : pr ∈ JMap.set m k v) : pr = (k, v) ∨ pr ∈ m := by
  induction m with
  | nil =>
    rw [JMap.set] at h
    simp only [List.mem_singleton] at h
    exact Or.inl h
  | cons p rest ih =>
    rw [JMap.set] at h
    by_cases hp : p.1 = k
    · rw [if_pos hp] at h
      cases h with
      | head => left; rfl
      | tail _ h => right; right; exact h
    · rw [if_neg hp] at h
      cases h with
      | head => right; exact List.mem_cons_self _ _
      | tail _ h =>
        rcases ih h with h | h
        · left; exact h
        · right; right; exact h

theorem stackItems_get_ne (hts : JMap String ℚ) (i : String) :
    ∀ (group : List Item) (y : ℚ) (st : JMap String ℚ),
    (∀ jt ∈ group, jt.id ≠ i) →
    JMap.get (stackItems hts group y st) i = JMap.get st i := by
  intro group
  induction group with
  | nil => intro y st _; rfl
  | cons it rest ih =>
    intro y st h
    rw [stackItems, ih _ _ (fun jt hjt => h jt (by simp [hjt]))]
    exact JMap.get_set_ne st it.id i _ (Ne.symm (h it (by simp)))

theorem stackItems_get_mono (hts : JMap String ℚ) (i : String) :
    ∀ (group : List Item) (y : ℚ) (st : JMap String ℚ),
    (JMap.get st i).isSome →
    (JMap.get (stackItems hts group y st) i).isSome := by
  intro group
  induction group with
  | nil => intro y st h; exact h
  | cons it rest ih =>
    intro y st h
    exact ih _ _ (JMap.get_of_isSome_set st it.id i _ h)

theorem stackItems_isSome (hts : JMap String ℚ) (it : Item) :
    ∀ (group : List Item) (y : ℚ) (st : JMap String ℚ), it ∈ group →
    (JMap.get (stackItems hts group y st) it.id).isSome := by
  intro group
  induction group with
  | nil => intro y st h; cases h
  | cons jt rest ih =>
    intro y st h
    cases h with
    | head =>
      rw [stackItems]
      exact stackItems_get_mono hts it.id rest _ _
        (by rw [JMap.get_set_eq]; rfl)
    | tail _ h => exact ih _ _ h

theorem stackGroup_get_ne (hts : JMap String ℚ) (relY : JMap String ℚ)
    (pid : String) (group : List Item) (i : String)
    (h : ∀ jt ∈ group, jt.id ≠ i) :
    JMap.get (stackGroup hts relY pid group) i = JMap.get relY i :=
  stackItems_get_ne hts i group _ relY h

theorem byParentOf_values (lpm : JMap String (List String)) (P : Item → Prop) :
    ∀ (singles : List Item) (m0 : JMap String (List Item)),
    (∀ pr ∈ m0, ∀ jt ∈ pr.2, P jt) → (∀ jt ∈ singles, P jt) →
    ∀ pr ∈ singles.foldl (fun m it => pushVal m (parentKeyOf lpm it) it) m0,
    ∀ jt ∈ pr.2, P jt := by
  intro singles
  induction singles with
  | nil => intro m0 hm0 _ pr hpr; exact hm0 pr hpr
  | cons it rest ih =>
    intro m0 hm0 hsing pr hpr
    rw [List.foldl_cons] at hpr
    refine ih _ ?_ (fun jt hjt => hsing jt (by simp [hjt])) pr hpr
    intro pr2 hpr2 jt hjt
    unfold pushVal at hpr2
    cases hg : JMap.get m0 (parentKeyOf lpm it) with
    | some l =>
      rw [hg] at hpr2
      rcases JMap.mem_set hpr2 with h | h
      · subst h
        simp only at hjt
        rcases List.mem_append.mp hjt with h | h
        · exact hm0 _ (JMap.get_mem hg) jt h
        · simp only [List.mem_singleton] at h
          subst h
          exact hsing jt (by simp)
      · exact hm0 _ h jt hjt
    | none =>
      rw [hg] at hpr2
      rcases JMap.mem_set hpr2 with h | h
      · subst h
        simp only [List.mem_singleton] at hjt
        subst hjt
        exact hsing jt (by simp)
      · exact hm0 _ h jt hjt

theorem stackGroup_foldl_get_ne (hts : JMap String ℚ) (i : String) :
    ∀ (L : List (String × List Item)) (relY : JMap String ℚ),
    (∀ pr ∈ L, ∀ jt ∈ pr.2, jt.id ≠ i) →
    JMap.get (L.foldl (fun r pr => stackGroup hts r pr.1 pr.2) relY) i =
      JMap.get relY i := by
  intro L
  induction L with
  | nil => intro relY _; rfl
  | cons pr rest ih =>
    intro relY h
    rw [List.foldl_cons, ih _ (fun q hq => h q (by simp [hq]))]
    exact stackGroup_get_ne hts relY pr.1 pr.2 i (h pr (by simp))

theorem setCentroid_foldl_get_ne (lpm : JMap String (List String)) (i : String) :
    ∀ (L : List Item) (relY : JMap String ℚ),
    (∀ jt ∈ L, jt.id ≠ i) →
    JMap.get (L.foldl (setCentroid lpm) relY) i = JMap.get relY i := by
  intro L
  induction L with
  | nil => intro relY _; rfl
  | cons it rest ih =>
    intro relY h
    rw [List.foldl_cons, ih _ (fun q hq => h q (by simp [hq]))]
    unfold setCentroid
    dsimp only
    split
    · exact JMap.get_set_ne relY it.id i 0 (Ne.symm (h it (by simp)))
    · exact JMap.get_set_ne relY it.id i _ (Ne.symm (h it (by simp)))

theorem setCentroid_get_ne (lpm : JMap String (List String))
    (relY : JMap String ℚ) (it : Item) (i : String) (h : it.id ≠ i) :
    JMap.get (setCentroid lpm relY it) i = JMap.get relY i := by
  unfold setCentroid
  dsimp only
  split
  · exact JMap.get_set_ne relY it.id i 0 (Ne.symm h)
  · exact JMap.get_set_ne relY it.id i _ (Ne.symm h)

theorem byParentOf_members (lpm : JMap String (List String))
    (singles : List Item) :
    ∀ pr ∈ byParentOf lpm singles, ∀ jt ∈ pr.2, jt ∈ singles := by
  unfold byParentOf
  exact byParentOf_values lpm (fun jt => jt ∈ singles) singles []
    (by simp) (fun a ha => ha)

/-- After the multi-parent pass, a multi-parent item's entry is the centroid
of its resolved parents as read from the state the pass started in,
provided none of its parents is itself (re)assigned during the pass. -/
theorem setCentroid_fold_get (lpm : JMap String (List String)) (it : Item) :
    ∀ (multis : List Item) (relY1 : JMap String ℚ),
    it ∈ multis → (multis.map Item.id).Nodup →
    (∀ p ∈ lpsOf lpm it, ∀ jt ∈ multis, jt.id ≠ p) →
    JMap.get (multis.foldl (setCentroid lpm) relY1) it.id =
      (if ((lpsOf lpm it).filterMap (fun pid => JMap.get relY1 pid)).isEmpty
       then some 0
       else some (((lpsOf lpm it).filterMap (fun pid => JMap.get relY1 pid)).sum /
         ((((lpsOf lpm it).filterMap (fun pid => JMap.get relY1 pid)).length : ℚ)))) := by
  intro multis
  induction multis with
  | nil => intro relY1 h; cases h
  | cons hd tl ih =>
    intro relY1 hmem hnd hpar
    rw [List.foldl_cons]
    simp only [List.map_cons, List.nodup_cons, List.mem_map] at hnd
    cases hmem with
    | head =>
      have htl : ∀ jt ∈ tl, jt.id ≠ it.id := by
        intro jt hjt heq
        exact hnd.1 ⟨jt, hjt, heq⟩
      rw [setCentroid_foldl_get_ne lpm it.id tl _ htl]
      unfold setCentroid
      dsimp only
      split
      · exact JMap.get_set_eq _ _ _
      · exact JMap.get_set_eq _ _ _
    | tail _ hmem =>
      have hhd : hd.id ≠ it.id ∨ True := Or.inr trivial
      have hstep : ∀ p ∈ lpsOf lpm it,
          JMap.get (setCentroid lpm relY1 hd) p = JMap.get relY1 p := by
        intro p hp
        exact setCentroid_get_ne lpm relY1 hd p (hpar p hp hd (by simp))
      have hcongr : (lpsOf lpm it).filterMap
            (fun pid => JMap.get (setCentroid lpm relY1 hd) pid) =
          (lpsOf lpm it).filterMap (fun pid => JMap.get relY1 pid) :=
        List.filterMap_congr hstep
      rw [ih _ hmem hnd.2 (fun p hp jt hjt => hpar p hp jt (by simp [hjt])),
        hcongr]

/-- C4: immediately after the initial placement of its column — that is,
after `placeColumn` and before the collision sweep of that column — an
entity with more than one layout parent has its vertical center equal to
the arithmetic mean of its resolved parents' centers (the parents' values
in the state the column placement started from; hypotheses: ids in the
column are unique, no parent of the item is itself an item of this column,
and at least one parent has a resolved center). -/
theorem claim_C4_multiparent_centroid (lpm : JMap String (List String))
    (hts : JMap String ℚ) (relY : JMap String ℚ) (items : List Item)
    (it : Item) (hmem : it ∈ items) (hcl : it.clusterId = none)
    (hmulti : 1 < (lpsOf lpm it).length)
    (hnodup : (items.map Item.id).Nodup)
    (hpar : ∀ p ∈ lpsOf lpm it, ∀ jt ∈ items, jt.id ≠ p)
    (hne : ¬ ((lpsOf lpm it).filterMap (fun pid => JMap.get relY pid)).isEmpty) :
    JMap.get (placeColumn lpm hts relY items) it.id =
      some (((lpsOf lpm it).filterMap (fun pid => JMap.get relY pid)).sum /
        ((((lpsOf lpm it).filterMap (fun pid => JMap.get relY pid)).length : ℚ))) := by
  unfold placeColumn
  have hit_act : it ∈ actOf items := List.mem_filter.mpr ⟨hmem, by simp [hcl]⟩
  have hit_multi : it ∈ multisOf lpm items := by
    refine List.mem_filter.mpr ⟨hit_act, ?_⟩
    simp only [decide_eq_true_eq]
    omega
  have hsub_single : ∀ jt ∈ singlesOf lpm items, jt ∈ items := by
    intro jt hjt
    exact (List.mem_filter.mp (List.mem_filter.mp hjt).1).1
  have hsub_multi : ∀ jt ∈ multisOf lpm items, jt ∈ items := by
    intro jt hjt
    exact (List.mem_filter.mp (List.mem_filter.mp hjt).1).1
  have hrelY1 : ∀ p ∈ lpsOf lpm it,
      JMap.get ((byParentOf lpm (singlesOf lpm items)).foldl
        (fun r pr => stackGroup hts r pr.1 pr.2) relY) p = JMap.get relY p := by
    intro p hp
    refine stackGroup_foldl_get_ne hts p _ relY ?_
    intro pr hpr jt hjt
    exact hpar p hp jt (hsub_single jt (byParentOf_members lpm _ pr hpr jt hjt))
  have hnod_m : ((multisOf lpm items).map Item.id).Nodup := by
    refine List.Nodup.sublist (List.Sublist.map Item.id ?_) hnodup
    exact List.Sublist.trans (List.filter_sublist _) (List.filter_sublist _)
  have hres := setCentroid_fold_get lpm it (multisOf lpm items)
    ((byParentOf lpm (singlesOf lpm items)).foldl
      (fun r pr => stackGroup hts r pr.1 pr.2) relY)
    hit_multi hnod_m (fun p hp jt hjt => hpar p hp jt (hsub_multi jt hjt))
  rw [hres]
  have hcongr : (lpsOf lpm it).filterMap
        (fun pid => JMap.get ((byParentOf lpm (singlesOf lpm items)).foldl
          (fun r pr => stackGroup hts r pr.1 pr.2) relY) pid) =
      (lpsOf lpm it).filterMap (fun pid => JMap.get relY pid) :=
    List.filterMap_congr hrelY1
  rw [hcongr, if_neg hne]

def c4lpm : JMap String (List String) := [("D", ["B", "C"])]

def c4relY : JMap String ℚ := [("B", 100), ("C", 300)]

def c4item : Item :=
  { id := "D", col := 2, inputIdx := 0, isPlaceholder := false,
    clusterId := none, parent := none }

/-- Witness for C4 — the spec's scenario 3: `D` with parents `B`, `C`
whose resolved centers are 100 and 300 gets center 200 before the sweep. -/
theorem claim_C4_witness :
    JMap.get (placeColumn c4lpm [] c4relY [c4item]) c4item.id = some 200 := by
  have h := claim_C4_multiparent_centroid c4lpm [] c4relY [c4item] c4item
    (by decide) (by decide) (by decide) (by decide) (by decide) (by decide)
  rw [h]
  simp only [lpsOf, JMap.get, c4lpm, c4relY, c4item]
  have hBC : (("B" : String) = "C") = False := by simp
  norm_num [List.filterMap, hBC]

-- ════════════════════════════════════════════════════════════════════════
-- Presence (isSome) monotonicity through the positioning pipeline
-- ════════════════════════════════════════════════════════════════════════

theorem stackIds_get_mono (hts : JMap String ℚ) (i : String) :
    ∀ (ids : List String) (y : ℚ) (st : JMap String ℚ),
    (JMap.get st i).isSome → (JMap.get (stackIds hts ids y st) i).isSome := by
  intro ids
  induction ids with
  | nil => intro y st h; exact h
  | cons j rest ih =>
    intro y st h
    exact ih _ _ (JMap.get_of_isSome_set st j i _ h)

theorem stackIds_isSome (hts : JMap String ℚ) (mid : String) :
    ∀ (ids : List String) (y : ℚ) (st : JMap String ℚ), mid ∈ ids →
    (JMap.get (stackIds hts ids y st) mid).isSome := by
  intro ids
  induction ids with
  | nil => intro y st h; cases h
  | cons j rest ih =>
    intro y st h
    cases h with
    | head =>
      rw [stackIds]
      exact stackIds_get_mono hts mid rest _ _ (by rw [JMap.get_set_eq]; rfl)
    | tail _ h => exact ih _ _ h

theorem setClusterCenter_get_mono (cm : Cluster) (relY1 : JMap String ℚ)
    (i : String) (h : (JMap.get relY1 i).isSome) :
    (JMap.get (setClusterCenter cm relY1) i).isSome := by
  unfold setClusterCenter
  cases cm.members.head? with
  | none => exact h
  | some m0 =>
    cases cm.members.getLast? with
    | none => exact h
    | some mL =>
      dsimp only
      cases JMap.get relY1 m0 with
      | none => exact h
      | some y0 =>
        cases JMap.get relY1 mL with
        | none => exact h
        | some yL => exact JMap.get_of_isSome_set _ cm.id i _ h

theorem stackMembers_get_mono (hts st : JMap String ℚ) (cm : Cluster)
    (i : String) (h : (JMap.get st i).isSome) :
    (JMap.get (stackMembers hts st cm) i).isSome :=
  setClusterCenter_get_mono cm _ i (stackIds_get_mono hts i cm.members _ st h)

theorem stackMembers_member_isSome (hts st : JMap String ℚ) (cm : Cluster)
    (mid : String) (h : mid ∈ cm.members) :
    (JMap.get (stackMembers hts st cm) mid).isSome :=
  setClusterCenter_get_mono cm _ mid (stackIds_isSome hts mid cm.members _ st h)

theorem stackMembers_foldl_mono (hts : JMap String ℚ) (i : String) :
    ∀ (L : List Cluster) (st : JMap String ℚ),
    (JMap.get st i).isSome →
    (JMap.get (L.foldl (stackMembers hts) st) i).isSome := by
  intro L
  induction L with
  | nil => intro st h; exact h
  | cons cm rest ih =>
    intro st h
    exact ih _ (stackMembers_get_mono hts st cm i h)

theorem stackMembers_foldl_member_isSome (hts : JMap String ℚ)
    (cm : Cluster) (mid : String) (hmm : mid ∈ cm.members) :
    ∀ (L : List Cluster) (st : JMap String ℚ), cm ∈ L →
    (JMap.get (L.foldl (stackMembers hts) st) mid).isSome := by
  intro L
  induction L with
  | nil => intro st h; cases h
  | cons cm2 rest ih =>
    intro st h
    rw [List.foldl_cons]
    cases h with
    | head =>
      exact stackMembers_foldl_mono hts mid rest _
        (stackMembers_member_isSome hts st cm mid hmm)
    | tail _ h => exact ih _ h

theorem clusterPhase_member_isSome (cls : List Cluster) (hts : JMap String ℚ)
    (cm : Cluster) (mid : String) (hcm : cm ∈ cls) (h : mid ∈ cm.members) :
    (JMap.get (clusterPhase cls hts) mid).isSome :=
  stackMembers_foldl_member_isSome hts cm mid h cls [] hcm

theorem setCentroid_get_mono (lpm : JMap String (List String))
    (relY : JMap String ℚ) (it : Item) (i : String)
    (h : (JMap.get relY i).isSome) :
    (JMap.get (setCentroid lpm relY it) i).isSome := by
  unfold setCentroid
  dsimp only
  split
  · exact JMap.get_of_isSome_set relY it.id i _ h
  · exact JMap.get_of_isSome_set relY it.id i _ h

theorem setCentroid_foldl_mono (lpm : JMap String (List String)) (i : String) :
    ∀ (L : List Item) (relY : JMap String ℚ),
    (JMap.get relY i).isSome →
    (JMap.get (L.foldl (setCentroid lpm) relY) i).isSome := by
  intro L
  induction L with
  | nil => intro relY h; exact h
  | cons it rest ih =>
    intro relY h
    exact ih _ (setCentroid_get_mono lpm relY it i h)

theorem stackGroup_get_mono (hts relY : JMap String ℚ) (pid : String)
    (group : List Item) (i : String) (h : (JMap.get relY i).isSome) :
    (JMap.get (stackGroup hts relY pid group) i).isSome :=
  stackItems_get_mono hts i group _ relY h

theorem stackGroup_foldl_mono (hts : JMap String ℚ) (i : String) :
    ∀ (L : List (String × List Item)) (relY : JMap String ℚ),
    (JMap.get relY i).isSome →
    (JMap.get (L.foldl (fun r pr => stackGroup hts r pr.1 pr.2) relY) i).isSome := by
  intro L
  induction L with
  | nil => intro relY h; exact h
  | cons pr rest ih =>
    intro relY h
    exact ih _ (stackGroup_get_mono hts relY pr.1 pr.2 i h)

theorem placeColumn_get_mono (lpm : JMap String (List String))
    (hts relY : JMap String ℚ) (items : List Item) (i : String)
    (h : (JMap.get relY i).isSome) :
    (JMap.get (placeColumn lpm hts relY items) i).isSome :=
  setCentroid_foldl_mono lpm i _ _ (stackGroup_foldl_mono hts i _ relY h)

theorem shiftItems_get_mono (over : ℚ) (i : String) :
    ∀ (items : List Item) (relY : JMap String ℚ),
    (JMap.get relY i).isSome →
    (JMap.get (shiftItems over items relY) i).isSome := by
  intro items
  induction items with
  | nil => intro relY h; exact h
  | cons it rest ih =>
    intro relY h
    rw [shiftItems, List.foldl_cons]
    cases hg : JMap.get relY it.id with
    | none =>
      dsimp only
      exact ih _ h
    | some v =>
      dsimp only
      exact ih _ (JMap.get_of_isSome_set relY it.id i _ h)

theorem sweepGo_get_mono (i : String) :
    ∀ (l : List Item) (relY : JMap String ℚ) (prev : Item),
    (JMap.get relY i).isSome →
    (JMap.get (sweepGo relY prev l) i).isSome := by
  intro l
  induction l with
  | nil => intro relY prev h; exact h
  | cons curr rest ih =>
    intro relY prev h
    rw [sweepGo]
    cases JMap.get relY prev.id with
    | none => exact ih _ _ h
    | some py =>
      cases JMap.get relY curr.id with
      | none => exact ih _ _ h
      | some cy =>
        dsimp only
        split
        · exact ih _ _ (shiftItems_get_mono _ i _ relY h)
        · exact ih _ _ h

theorem sweepColumn_get_mono (relY : JMap String ℚ) (items : List Item)
    (i : String) (h : (JMap.get relY i).isSome) :
    (JMap.get (sweepColumn relY items) i).isSome := by
  unfold sweepColumn
  cases sortByIdx (fun it : Item => it.inputIdx) items with
  | nil => exact h
  | cons first rest => exact sweepGo_get_mono i rest relY first h

theorem columnsPhase_get_mono (lpm : JMap String (List String))
    (hts : JMap String ℚ) (cols : JMap Int (List Item)) (i : String) :
    ∀ (sorted : List Int) (relY0 : JMap String ℚ),
    (JMap.get relY0 i).isSome →
    (JMap.get (columnsPhase lpm hts cols sorted relY0) i).isSome := by
  intro sorted
  induction sorted with
  | nil => intro relY0 h; exact h
  | cons c rest ih =>
    intro relY0 h
    unfold columnsPhase at ih ⊢
    rw [List.foldl_cons]
    exact ih _ (sweepColumn_get_mono _ _ i (placeColumn_get_mono lpm hts _ _ i h))

theorem updateClusterCenters_get_mono (cls : List Cluster) (i : String) :
    ∀ (relY : JMap String ℚ), (JMap.get relY i).isSome →
    (JMap.get (updateClusterCenters cls relY) i).isSome := by
  induction cls with
  | nil => intro relY h; exact h
  | cons cm rest ih =>
    intro relY h
    unfold updateClusterCenters at ih ⊢
    rw [List.foldl_cons]
    exact ih _ (setClusterCenter_get_mono cm relY i h)

-- ════════════════════════════════════════════════════════════════════════
-- buildPos and addClusterBoxes: entry provenance
-- ════════════════════════════════════════════════════════════════════════

/-- The `pos` entry built for a non-cluster item (app.js, lines 728-740). -/
def itemEntry (it : Item) (cy off : ℚ) : PosEntry :=
  { x := cfg.marginX + (it.col : ℚ) * (cfg.boxW + cfg.gapX)
    y := cy + off - cfg.boxH / 2
    col := it.col
    centerY := cy + off
    isPlaceholder := it.isPlaceholder
    isCluster := false }

theorem buildPos_unfold (relY : JMap String ℚ) (off : ℚ) (items : List Item) :
    buildPos relY off items = items.foldl (fun pos it =>
      match JMap.get relY it.id with
      | none => pos
      | some cy => JMap.set pos it.id (itemEntry it cy off)) [] := rfl

theorem buildPos_foldl_get_ne (relY : JMap String ℚ) (off : ℚ) (i : String) :
    ∀ (items : List Item) (pos0 : JMap String PosEntry),
    (∀ it ∈ items, it.id ≠ i) →
    JMap.get (items.foldl (fun pos it =>
      match JMap.get relY it.id with
      | none => pos
      | some cy => JMap.set pos it.id (itemEntry it cy off)) pos0) i =
    JMap.get pos0 i := by
  intro items
  induction items with
  | nil => intro pos0 _; rfl
  | cons it rest ih =>
    intro pos0 h
    rw [List.foldl_cons]
    rw [ih _ (fun jt hjt => h jt (by simp [hjt]))]
    cases hg : JMap.get relY it.id with
    | none => rfl
    | some cy => exact JMap.get_set_ne pos0 it.id i _ (Ne.symm (h it (by simp)))

theorem buildPos_foldl_get_some (relY : JMap String ℚ) (off : ℚ) (it : Item)
    (cy : ℚ) (hrel : JMap.get relY it.id = some cy) :
    ∀ (items : List Item) (pos0 : JMap String PosEntry), it ∈ items →
    (items.map Item.id).Nodup →
    JMap.get (items.foldl (fun pos jt =>
      match JMap.get relY jt.id with
      | none => pos
      | some cy2 => JMap.set pos jt.id (itemEntry jt cy2 off)) pos0) it.id =
    some (itemEntry it cy off) := by
  intro items
  induction items with
  | nil => intro pos0 h; cases h
  | cons jt rest ih =>
    intro pos0 hmem hnd
    simp only [List.map_cons, List.nodup_cons, List.mem_map] at hnd
    rw [List.foldl_cons]
    cases hmem with
    | head =>
      have hrest : ∀ kt ∈ rest, kt.id ≠ it.id := by
        intro kt hkt heq
        exact hnd.1 ⟨kt, hkt, heq⟩
      rw [buildPos_foldl_get_ne relY off it.id rest _ hrest, hrel,
        JMap.get_set_eq]
    | tail _ hmem => exact ih _ hmem hnd.2

theorem buildPos_get_some (relY : JMap String ℚ) (off : ℚ)
    (items : List Item) (it : Item) (cy : ℚ)
    (hrel : JMap.get relY it.id = some cy) (hmem : it ∈ items)
    (hnd : (items.map Item.id).Nodup) :
    JMap.get (buildPos relY off items) it.id = some (itemEntry it cy off) := by
  rw [buildPos_unfold]
  exact buildPos_foldl_get_some relY off it cy hrel items [] hmem hnd

theorem minListQ_le_of_mem :
    ∀ (l : List ℚ) (x : ℚ), x ∈ l → minListQ l ≤ x := by
  have haux : ∀ (l : List ℚ) (a : ℚ), l.foldl min a ≤ a ∧
      ∀ x ∈ l, l.foldl min a ≤ x := by
    intro l
    induction l with
    | nil => intro a; exact ⟨le_refl a, by simp⟩
    | cons y ys ih =>
      intro a
      rw [List.foldl_cons]
      constructor
      · exact le_trans (ih (min a y)).1 (min_le_left a y)
      · intro x hx
        cases hx with
        | head => exact le_trans (ih (min a y)).1 (min_le_right a y)
        | tail _ hx => exact (ih (min a y)).2 x hx
  intro l x hx
  cases l with
  | nil => cases hx
  | cons y ys =>
    cases hx with
    | head => exact (haux ys x).1
    | tail _ hx => exact (haux ys y).2 x hx

theorem le_maxListQ_of_mem :
    ∀ (l : List ℚ) (x : ℚ), x ∈ l → x ≤ maxListQ l := by
  have haux : ∀ (l : List ℚ) (a : ℚ), a ≤ l.foldl max a ∧
      ∀ x ∈ l, x ≤ l.foldl max a := by
    intro l
    induction l with
    | nil => intro a; exact ⟨le_refl a, by simp⟩
    | cons y ys ih =>
      intro a
      rw [List.foldl_cons]
      constructor
      · exact le_trans (le_max_left a y) (ih (max a y)).1
      · intro x hx
        cases hx with
        | head => exact le_trans (le_max_right a y) (ih (max a y)).1
        | tail _ hx => exact (ih (max a y)).2 x hx
  intro l x hx
  cases l with
  | nil => cases hx
  | cons y ys =>
    cases hx with
    | head => exact (haux ys x).1
    | tail _ hx => exact (haux ys y).2 x hx

theorem addClusterBox_get_ne (relY : JMap String ℚ) (off : ℚ)
    (pos : JMap String PosEntry) (cm : Cluster) (i : String)
    (h : i ≠ cm.id) :
    JMap.get (addClusterBox relY off pos cm) i = JMap.get pos i := by
  unfold addClusterBox
  dsimp only
  split
  · rfl
  · exact JMap.get_set_ne pos cm.id i _ h

theorem addClusterBoxes_foldl_get_ne (relY : JMap String ℚ) (off : ℚ)
    (i : String) :
    ∀ (L : List Cluster) (pos0 : JMap String PosEntry),
    (∀ cm ∈ L, i ≠ cm.id) →
    JMap.get (L.foldl (addClusterBox relY off) pos0) i = JMap.get pos0 i := by
  intro L
  induction L with
  | nil => intro pos0 _; rfl
  | cons cm rest ih =>
    intro pos0 h
    rw [List.foldl_cons, ih _ (fun q hq => h q (by simp [hq]))]
    exact addClusterBox_get_ne relY off pos0 cm i (h cm (by simp))

theorem addClusterBoxes_spec (relY : JMap String ℚ) (off : ℚ) (mid : String)
    (pm : PosEntry) :
    ∀ (cls : List Cluster) (pos0 : JMap String PosEntry) (cm : Cluster),
    cm ∈ cls → (cls.map Cluster.id).Nodup →
    (∀ cm2 ∈ cls, mid ≠ cm2.id) →
    mid ∈ cm.members →
    JMap.get pos0 mid = some pm →
    ∃ minY maxY,
      JMap.get (addClusterBoxes cls relY off pos0) cm.id =
        some (clusterEntry cm minY maxY ((JMap.get relY cm.id).getD 0 + off)) ∧
      minY ≤ pm.y ∧ pm.y + cfg.boxH ≤ maxY := by
  intro cls
  induction cls with
  | nil => intro pos0 cm h; cases h
  | cons cm2 rest ih =>
    intro pos0 cm hcm hnd hmid hmm hpm
    simp only [List.map_cons, List.nodup_cons, List.mem_map] at hnd
    unfold addClusterBoxes
    rw [List.foldl_cons]
    cases hcm with
    | head =>
      have hips : pm ∈ cm2.members.filterMap (fun mid2 => JMap.get pos0 mid2) :=
        List.mem_filterMap.mpr ⟨mid, hmm, hpm⟩
      have hne : ¬ (cm2.members.filterMap
          (fun mid2 => JMap.get pos0 mid2)).isEmpty := by
        intro hembool
        rw [List.isEmpty_iff] at hembool
        rw [hembool] at hips
        cases hips
      refine ⟨minListQ ((cm2.members.filterMap
          (fun mid2 => JMap.get pos0 mid2)).map (fun p => p.y)),
        maxListQ ((cm2.members.filterMap
          (fun mid2 => JMap.get pos0 mid2)).map (fun p => p.y + cfg.boxH)),
        ?_, ?_, ?_⟩
      · have hrest : ∀ cm3 ∈ rest, cm2.id ≠ cm3.id := by
          intro cm3 h3 heq
          exact hnd.1 ⟨cm3, h3, heq.symm⟩
        rw [addClusterBoxes_foldl_get_ne relY off cm2.id rest _ hrest]
        unfold addClusterBox
        dsimp only
        rw [if_neg hne]
        exact JMap.get_set_eq _ _ _
      · exact minListQ_le_of_mem _ pm.y (List.mem_map.mpr ⟨pm, hips, rfl⟩)
      · exact le_maxListQ_of_mem _ (pm.y + cfg.boxH)
          (List.mem_map.mpr ⟨pm, hips, rfl⟩)
    | tail _ hcm =>
      have hpm2 : JMap.get (addClusterBox relY off pos0 cm2) mid = some pm := by
        rw [addClusterBox_get_ne relY off pos0 cm2 mid (hmid cm2 (by simp))]
        exact hpm
      exact ih _ cm hcm hnd.2 (fun q hq => hmid q (by simp [hq])) hmm hpm2

/-- C9: for every cluster with at least one positioned member (here: a
member that is an entity of the input, sharing the cluster's column), the
cluster's computed bounding box contains the member's fixed-size box with
at least `cfg.clusterPad` of padding on all four sides. -/
theorem claim_C9_cluster_bbox_padding (rn : List RNode) (cls : List Cluster)
    (cm : Cluster) (hcm : cm ∈ cls) (hclnd : (cls.map Cluster.id).Nodup)
    (m : RNode) (hm : m ∈ rn) (hmm : m.id ∈ cm.members)
    (hmcol : m.col = cm.col)
    (hids : ((pipeItems rn cls).map Item.id).Nodup)
    (hmcls : ∀ cm2 ∈ cls, m.id ≠ cm2.id) :
    ∃ bb pm, JMap.get (corePositions rn cls).1 cm.id = some bb ∧
      JMap.get (corePositions rn cls).1 m.id = some pm ∧
      bb.isCluster = true ∧
      cfg.clusterPad ≤ pm.x - bb.x ∧
      cfg.clusterPad ≤ (bb.x + bb.clusterW) - (pm.x + cfg.boxW) ∧
      cfg.clusterPad ≤ pm.y - bb.y ∧
      cfg.clusterPad ≤ (bb.y + bb.clusterH) - (pm.y + cfg.boxH) := by
  have hrel : (JMap.get (pipeRelY rn cls) m.id).isSome := by
    unfold pipeRelY
    refine updateClusterCenters_get_mono cls m.id _ ?_
    refine columnsPhase_get_mono _ _ _ m.id _ _ ?_
    exact clusterPhase_member_isSome cls _ cm m.id hcm hmm
  obtain ⟨cy, hcy⟩ := Option.isSome_iff_exists.mp hrel
  have hitem : toItem m ∈ pipeItems rn cls := by
    unfold pipeItems allItemsOf
    exact List.mem_append.mpr (Or.inl (List.mem_map.mpr ⟨m, hm, rfl⟩))
  have hpm : JMap.get (buildPos (pipeRelY rn cls) (pipeOff rn cls)
      (pipeItems rn cls)) (toItem m).id =
      some (itemEntry (toItem m) cy (pipeOff rn cls)) :=
    buildPos_get_some _ _ _ (toItem m) cy hcy hitem hids
  obtain ⟨minY, maxY, hbb, hminY, hmaxY⟩ :=
    addClusterBoxes_spec (pipeRelY rn cls) (pipeOff rn cls) m.id
      (itemEntry (toItem m) cy (pipeOff rn cls)) cls _ cm hcm hclnd hmcls hmm hpm
  refine ⟨clusterEntry cm minY maxY
      ((JMap.get (pipeRelY rn cls) cm.id).getD 0 + pipeOff rn cls),
    itemEntry (toItem m) cy (pipeOff rn cls), hbb, ?_, rfl, ?_, ?_, ?_, ?_⟩
  · show JMap.get (addClusterBoxes cls (pipeRelY rn cls) (pipeOff rn cls)
      (buildPos (pipeRelY rn cls) (pipeOff rn cls) (pipeItems rn cls)))
        m.id = _
    unfold addClusterBoxes
    rw [addClusterBoxes_foldl_get_ne _ _ m.id cls _ hmcls]
    exact hpm
  · simp only [itemEntry, clusterEntry, toItem, hmcol]
    linarith
  · simp only [itemEntry, clusterEntry, toItem, hmcol]
    linarith
  · simp only [itemEntry] at hminY
    simp only [itemEntry, clusterEntry, toItem]
    linarith
  · simp only [itemEntry] at hmaxY
    simp only [itemEntry, clusterEntry, toItem]
    linarith

def c9m : RNode :=
  { id := "m", col := 0, parentIds := [], clusterId := some "g", inputIdx := 0 }

def c9g : Cluster := { id := "g", col := 0, members := ["m"], parentIds := [] }

/-- Witness for C9 on a one-member cluster. -/
theorem claim_C9_witness :
    ∃ bb pm, JMap.get (corePositions [c9m] [c9g]).1 c9g.id = some bb ∧
      JMap.get (corePositions [c9m] [c9g]).1 c9m.id = some pm ∧
      bb.isCluster = true ∧
      cfg.clusterPad ≤ pm.x - bb.x ∧
      cfg.clusterPad ≤ (bb.x + bb.clusterW) - (pm.x + cfg.boxW) ∧
      cfg.clusterPad ≤ pm.y - bb.y ∧
      cfg.clusterPad ≤ (bb.y + bb.clusterH) - (pm.y + cfg.boxH) :=
  claim_C9_cluster_bbox_padding [c9m] [c9g] c9g (by decide) (by decide)
    c9m (by decide) (by decide) (by decide) (by decide) (by decide)

-- ════════════════════════════════════════════════════════════════════════
-- pushVal, sortByIdx and column-bucket lemmas
-- ════════════════════════════════════════════════════════════════════════

theorem pushVal_get_ne {κ α : Type} [DecidableEq κ]
    (m : JMap κ (List α)) (k k2 : κ) (v : α) (h : k2 ≠ k) :
    JMap.get (pushVal m k v) k2 = JMap.get m k2 := by
  unfold pushVal
  cases JMap.get m k with
  | none => exact JMap.get_set_ne m k k2 _ h
  | some l => exact JMap.get_set_ne m k k2 _ h

theorem pushVal_get_contains {κ α : Type} [DecidableEq κ]
    (m : JMap κ (List α)) (k k2 : κ) (v x : α)
    (h : ∃ l, JMap.get m k2 = some l ∧ x ∈ l) :
    ∃ l, JMap.get (pushVal m k v) k2 = some l ∧ x ∈ l := by
  obtain ⟨l, hl, hx⟩ := h
  by_cases hk : k2 = k
  · subst hk
    unfold pushVal
    rw [hl]
    exact ⟨l ++ [v], JMap.get_set_eq _ _ _, List.mem_append.mpr (Or.inl hx)⟩
  · rw [pushVal_get_ne m k k2 v hk]
    exact ⟨l, hl, hx⟩

theorem pushVal_get_self {κ α : Type} [DecidableEq κ]
    (m : JMap κ (List α)) (k : κ) (v : α) :
    ∃ l, JMap.get (pushVal m k v) k = some l ∧ v ∈ l := by
  unfold pushVal
  cases JMap.get m k with
  | none => exact ⟨[v], JMap.get_set_eq _ _ _, by simp⟩
  | some l =>
    exact ⟨l ++ [v], JMap.get_set_eq _ _ _, List.mem_append.mpr (Or.inr (by simp))⟩

theorem mem_insertByIdx {α : Type} (idx : α → Nat) (x y : α) :
    ∀ (l : List α), y ∈ insertByIdx idx x l ↔ y = x ∨ y ∈ l := by
  intro l
  induction l with
  | nil => simp [insertByIdx]
  | cons z rest ih =>
    rw [insertByIdx]
    split
    · simp only [List.mem_cons, ih]
      tauto
    · simp only [List.mem_cons]

theorem mem_sortByIdx {α : Type} (idx : α → Nat) (x : α) :
    ∀ (l : List α), x ∈ sortByIdx idx l ↔ x ∈ l := by
  have haux : ∀ (l acc : List α),
      x ∈ l.foldl (fun acc2 z => insertByIdx idx z acc2) acc ↔
        x ∈ l ∨ x ∈ acc := by
    intro l
    induction l with
    | nil => intro acc; simp
    | cons z rest ih =>
      intro acc
      rw [List.foldl_cons, ih]
      simp only [List.mem_cons, mem_insertByIdx]
      tauto
  intro l
  unfold sortByIdx
  rw [haux]
  simp

theorem JMap.get_mapVals {κ α β : Type} [DecidableEq κ] (f : α → β) :
    ∀ (m : JMap κ α) (k : κ),
    JMap.get (m.map (fun pr => (pr.1, f pr.2))) k = (JMap.get m k).map f := by
  intro m
  induction m with
  | nil => intro k; rfl
  | cons p rest ih =>
    intro k
    by_cases hp : p.1 = k
    · simp [JMap.get, hp]
    · simp [JMap.get, hp, ih]

theorem columnsOf_contains (items : List Item) (it : Item) (hmem : it ∈ items) :
    ∃ l, JMap.get (columnsOf items) it.col = some l ∧ it ∈ l := by
  have haux : ∀ (l2 : List Item) (m0 : JMap Int (List Item)),
      (∃ l, JMap.get m0 it.col = some l ∧ it ∈ l) ∨ it ∈ l2 →
      ∃ l, JMap.get (l2.foldl (fun m jt => pushVal m jt.col jt) m0) it.col =
        some l ∧ it ∈ l := by
    intro l2
    induction l2 with
    | nil =>
      intro m0 h
      rcases h with h | h
      · exact h
      · cases h
    | cons jt rest ih =>
      intro m0 h
      rw [List.foldl_cons]
      rcases h with h | h
      · exact ih _ (Or.inl (pushVal_get_contains m0 jt.col it.col jt it h))
      · cases h with
        | head => exact ih _ (Or.inl (pushVal_get_self m0 it.col it))
        | tail _ h => exact ih _ (Or.inr h)
  obtain ⟨l, hl, hit⟩ := haux items [] (Or.inr hmem)
  refine ⟨sortByIdx (fun jt : Item => jt.inputIdx) l, ?_, ?_⟩
  · unfold columnsOf
    rw [JMap.get_mapVals, hl]
    rfl
  · rw [mem_sortByIdx]
    exact hit

theorem mem_insertInt (x y : Int) :
    ∀ (l : List Int), y ∈ insertInt x l ↔ y = x ∨ y ∈ l := by
  intro l
  induction l with
  | nil => simp [insertInt]
  | cons z rest ih =>
    rw [insertInt]
    split
    · simp only [List.mem_cons, ih]
      tauto
    · simp only [List.mem_cons]

theorem mem_sortedColsOf (cols : JMap Int (List Item)) (c : Int) :
    c ∈ sortedColsOf cols ↔ c ∈ cols.map Prod.fst := by
  have haux : ∀ (l acc : List Int),
      c ∈ l.foldl (fun acc2 z => insertInt z acc2) acc ↔ c ∈ l ∨ c ∈ acc := by
    intro l
    induction l with
    | nil => intro acc; simp
    | cons z rest ih =>
      intro acc
      rw [List.foldl_cons, ih]
      simp only [List.mem_cons, mem_insertInt]
      tauto
  unfold sortedColsOf
  rw [haux]
  simp

theorem key_mem_of_get_some {κ α : Type} [DecidableEq κ] {m : JMap κ α}
    {k : κ} {v : α} (h : JMap.get m k = some v) : k ∈ m.map Prod.fst :=
  List.mem_map.mpr ⟨(k, v), JMap.get_mem h, rfl⟩

theorem byParentOf_covers (lpm : JMap String (List String)) (it : Item) :
    ∀ (singles : List Item) (m0 : JMap String (List Item)),
    it ∈ singles ∨
      (∃ l, JMap.get m0 (parentKeyOf lpm it) = some l ∧ it ∈ l) →
    ∃ l, JMap.get (singles.foldl
        (fun m jt => pushVal m (parentKeyOf lpm jt) jt) m0)
      (parentKeyOf lpm it) = some l ∧ it ∈ l := by
  intro singles
  induction singles with
  | nil =>
    intro m0 h
    rcases h with h | h
    · cases h
    · exact h
  | cons jt rest ih =>
    intro m0 h
    rw [List.foldl_cons]
    rcases h with h | h
    · cases h with
      | head =>
        exact ih _ (Or.inr (pushVal_get_self m0 (parentKeyOf lpm it) it))
      | tail _ h => exact ih _ (Or.inl h)
    · exact ih _ (Or.inr
        (pushVal_get_contains m0 (parentKeyOf lpm jt) (parentKeyOf lpm it) jt it h))

theorem stackGroup_foldl_isSome (hts : JMap String ℚ) (it : Item) :
    ∀ (L : List (String × List Item)) (relY : JMap String ℚ),
    (∃ pr ∈ L, it ∈ pr.2) →
    (JMap.get (L.foldl (fun r pr => stackGroup hts r pr.1 pr.2) relY)
      it.id).isSome := by
  intro L
  induction L with
  | nil =>
    intro relY h
    obtain ⟨pr, hpr, _⟩ := h
    cases hpr
  | cons pr2 rest ih =>
    intro relY h
    obtain ⟨pr, hpr, hit⟩ := h
    rw [List.foldl_cons]
    cases hpr with
    | head =>
      exact stackGroup_foldl_mono hts it.id rest _
        (stackItems_isSome hts it pr2.2 _ relY hit)
    | tail _ hpr => exact ih _ ⟨pr, hpr, hit⟩

theorem setCentroid_foldl_isSome (lpm : JMap String (List String)) (it : Item) :
    ∀ (L : List Item) (relY : JMap String ℚ), it ∈ L →
    (JMap.get (L.foldl (setCentroid lpm) relY) it.id).isSome := by
  intro L
  induction L with
  | nil => intro relY h; cases h
  | cons jt rest ih =>
    intro relY h
    rw [List.foldl_cons]
    cases h with
    | head =>
      refine setCentroid_foldl_mono lpm it.id rest _ ?_
      unfold setCentroid
      dsimp only
      split
      · rw [JMap.get_set_eq]; rfl
      · rw [JMap.get_set_eq]; rfl
    | tail _ h => exact ih _ h

theorem placeColumn_isSome (lpm : JMap String (List String))
    (hts relY : JMap String ℚ) (items : List Item) (it : Item)
    (hmem : it ∈ items) (hcl : it.clusterId = none) :
    (JMap.get (placeColumn lpm hts relY items) it.id).isSome := by
  unfold placeColumn
  have hact : it ∈ actOf items :=
    List.mem_filter.mpr ⟨hmem, by simp [hcl]⟩
  by_cases hsing : (lpsOf lpm it).length ≤ 1
  · have hmem2 : it ∈ singlesOf lpm items :=
      List.mem_filter.mpr ⟨hact, by simpa using hsing⟩
    obtain ⟨l, hl, hit⟩ := byParentOf_covers lpm it (singlesOf lpm items) []
      (Or.inl hmem2)
    refine setCentroid_foldl_mono lpm it.id _ _ ?_
    exact stackGroup_foldl_isSome hts it _ relY
      ⟨(parentKeyOf lpm it, l), JMap.get_mem hl, hit⟩
  · have hmem2 : it ∈ multisOf lpm items :=
      List.mem_filter.mpr ⟨hact, by simpa using hsing⟩
    exact setCentroid_foldl_isSome lpm it _ _ hmem2

theorem insertByIdx_perm {α : Type} (idx : α → Nat) (x : α) :
    ∀ (l : List α), List.Perm (insertByIdx idx x l) (x :: l) := by
  intro l
  induction l with
  | nil => exact List.Perm.refl _
  | cons z rest ih =>
    rw [insertByIdx]
    split
    · exact List.Perm.trans (List.Perm.cons z ih) (List.Perm.swap x z rest)
    · exact List.Perm.refl _

theorem sortByIdx_perm {α : Type} (idx : α → Nat) :
    ∀ (l : List α), List.Perm (sortByIdx idx l) l := by
  have haux : ∀ (l acc : List α),
      List.Perm (l.foldl (fun acc2 z => insertByIdx idx z acc2) acc) (l ++ acc) := by
    intro l
    induction l with
    | nil => intro acc; exact List.Perm.refl _
    | cons z rest ih =>
      intro acc
      rw [List.foldl_cons]
      refine List.Perm.trans (ih (insertByIdx idx z acc)) ?_
      refine List.Perm.trans (List.Perm.append_left rest (insertByIdx_perm idx z acc)) ?_
      exact List.perm_middle
  intro l
  unfold sortByIdx
  refine List.Perm.trans (haux l []) ?_
  simp

theorem columnsPhase_cons (lpm : JMap String (List String))
    (hts : JMap String ℚ) (cols : JMap Int (List Item)) (c2 : Int)
    (rest : List Int) (relY0 : JMap String ℚ) :
    columnsPhase lpm hts cols (c2 :: rest) relY0 =
      columnsPhase lpm hts cols rest
        (sweepColumn (placeColumn lpm hts relY0 ((JMap.get cols c2).getD []))
          ((JMap.get cols c2).getD [])) := rfl

theorem JMap.set_keys_subset {κ α : Type} [DecidableEq κ] (k j : κ) (v : α) :
    ∀ (m : JMap κ α), j ∈ (JMap.set m k v).map Prod.fst →
      j = k ∨ j ∈ m.map Prod.fst := by
  intro m
  induction m with
  | nil => intro h; simpa [JMap.set] using h
  | cons p rest ih =>
    intro h
    rw [JMap.set] at h
    by_cases hp : p.1 = k
    · rw [if_pos hp] at h
      simp only [List.map_cons, List.mem_cons] at h ⊢
      rcases h with h | h
      · exact Or.inl h
      · exact Or.inr (Or.inr h)
    · rw [if_neg hp] at h
      simp only [List.map_cons, List.mem_cons] at h ⊢
      rcases h with h | h
      · exact Or.inr (Or.inl h)
      · rcases ih h with h | h
        · exact Or.inl h
        · exact Or.inr (Or.inr h)

theorem JMap.set_keys_nodup {κ α : Type} [DecidableEq κ] (k : κ) (v : α) :
    ∀ (m : JMap κ α), (m.map Prod.fst).Nodup →
      ((JMap.set m k v).map Prod.fst).Nodup := by
  intro m
  induction m with
  | nil => intro _; simp [JMap.set]
  | cons p rest ih =>
    intro hnd
    rw [JMap.set]
    simp only [List.map_cons, List.nodup_cons] at hnd
    by_cases hp : p.1 = k
    · rw [if_pos hp]
      simp only [List.map_cons, List.nodup_cons]
      exact ⟨by rw [← hp]; exact hnd.1, hnd.2⟩
    · rw [if_neg hp]
      simp only [List.map_cons, List.nodup_cons]
      refine ⟨?_, ih hnd.2⟩
      intro hmem
      rcases JMap.set_keys_subset k p.1 v rest hmem with h | h
      · exact hp h
      · exact hnd.1 h

/-- One push into `skipEdgeGroups`: node `child` skips column `col` on its
edge from parent `pid` (whose resolved column is `pc`). -/
structure SkipReq where
  pid : String
  pc : Int
  col : Int
  child : RNode
  deriving DecidableEq, Repr

/-- All pushes the `nodes.forEach` at app.js lines 449-471 performs for one
node, in order. -/
def nodeReqs (rn : List RNode) (cls : List Cluster) (n : RNode) :
    List SkipReq :=
  n.parentIds.flatMap (fun pid =>
    match resolveParentCol rn cls pid with
    | none => []
    | some pc =>
      if n.col ≤ pc + 1 then []
      else (intRange (pc + 1) n.col).map
        (fun col => { pid := pid, pc := pc, col := col, child := n }))

def skReqs (rn : List RNode) (cls : List Cluster) : List SkipReq :=
  rn.flatMap (nodeReqs rn cls)

/-- The `(pid, col)` pairs of all skip-edge pushes. -/
def skPairs (rn : List RNode) (cls : List Cluster) : List (String × Int) :=
  (skReqs rn cls).map (fun r => (r.pid, r.col))

/-- The `(childId, pid, col)` triples of all skip-edge pushes. -/
def skTriples (rn : List RNode) (cls : List Cluster) :
    List (String × String × Int) :=
  (skReqs rn cls).map (fun r => (r.child.id, r.pid, r.col))

/-- Upper bound for every cluster index the synthesis can assign. -/
def ciBound (rn : List RNode) (cls : List Cluster) : Nat :=
  (skReqs rn cls).length

theorem foldl_flatMap {α β σ : Type} (f : α → List β) (g : σ → β → σ) :
    ∀ (l : List α) (init : σ),
    (l.flatMap f).foldl g init = l.foldl (fun acc x => (f x).foldl g acc) init := by
  intro l
  induction l with
  | nil => intro init; rfl
  | cons x xs ih =>
    intro init
    rw [List.flatMap_cons, List.foldl_append, List.foldl_cons, ih]

theorem foldl_congr_fun {α σ : Type} (g1 g2 : σ → α → σ)
    (h : ∀ acc x, g1 acc x = g2 acc x) :
    ∀ (l : List α) (init : σ), l.foldl g1 init = l.foldl g2 init := by
  intro l
  induction l with
  | nil => intro init; rfl
  | cons x xs ih =>
    intro init
    rw [List.foldl_cons, List.foldl_cons, h, ih]

theorem skipEdgeGroups_eq_replay (rn : List RNode) (cls : List Cluster) :
    skipEdgeGroups rn cls = (skReqs rn cls).foldl
      (fun m r => pushGroupChild m r.pid r.pc r.col r.child) [] := by
  unfold skipEdgeGroups skReqs
  rw [foldl_flatMap]
  refine foldl_congr_fun _ _ ?_ rn []
  intro m n
  unfold addNodeSkipEdges nodeReqs
  rw [foldl_flatMap]
  refine foldl_congr_fun _ _ ?_ n.parentIds m
  intro m2 pid
  cases resolveParentCol rn cls pid with
  | none => rfl
  | some pc =>
    dsimp only
    by_cases hle : n.col ≤ pc + 1
    · rw [if_pos hle, if_pos hle]; rfl
    · rw [if_neg hle, if_neg hle, List.foldl_map]

theorem pushGroupChild_get_ne (m : JMap String SkipGroup) (pid : String)
    (pc col : Int) (child : RNode) (key : String)
    (h : key ≠ gKey pid col) :
    JMap.get (pushGroupChild m pid pc col child) key = JMap.get m key := by
  unfold pushGroupChild
  cases JMap.get m (gKey pid col) with
  | none => exact JMap.get_set_ne m (gKey pid col) key _ h
  | some g => exact JMap.get_set_ne m (gKey pid col) key _ h

theorem skReqs_sound (rn : List RNode) (cls : List Cluster) (r : SkipReq)
    (hr : r ∈ skReqs rn cls) :
    r.child ∈ rn ∧ r.pid ∈ r.child.parentIds ∧
    resolveParentCol rn cls r.pid = some r.pc ∧
    r.pc + 1 < r.child.col ∧ r.col ∈ intRange (r.pc + 1) r.child.col := by
  unfold skReqs at hr
  obtain ⟨n, hn, hr⟩ := List.mem_flatMap.mp hr
  unfold nodeReqs at hr
  obtain ⟨pid, hpid, hr⟩ := List.mem_flatMap.mp hr
  cases hres : resolveParentCol rn cls pid with
  | none => rw [hres] at hr; cases hr
  | some pc =>
    rw [hres] at hr
    dsimp only at hr
    by_cases hle : n.col ≤ pc + 1
    · rw [if_pos hle] at hr; cases hr
    · rw [if_neg hle] at hr
      obtain ⟨col, hcol, hr⟩ := List.mem_map.mp hr
      cases hr
      refine ⟨hn, hpid, hres, ?_, hcol⟩
      dsimp only
      omega

theorem skReqs_complete (rn : List RNode) (cls : List Cluster) (n : RNode)
    (pid : String) (pc col : Int) (hn : n ∈ rn) (hpid : pid ∈ n.parentIds)
    (hres : resolveParentCol rn cls pid = some pc)
    (hlt : pc + 1 < n.col) (hcol : col ∈ intRange (pc + 1) n.col) :
    ({ pid := pid, pc := pc, col := col, child := n } : SkipReq) ∈
      skReqs rn cls := by
  unfold skReqs
  refine List.mem_flatMap.mpr ⟨n, hn, ?_⟩
  unfold nodeReqs
  refine List.mem_flatMap.mpr ⟨pid, hpid, ?_⟩
  rw [hres]
  dsimp only
  rw [if_neg (by omega)]
  exact List.mem_map.mpr ⟨col, hcol, rfl⟩

/-- Well-formedness of the skip-edge group map: every stored group decodes
its own key, carries its parent's resolved column, has boundedly many
children, and every child really pushed a skip edge for that group. -/
def groupsWF (rn : List RNode) (cls : List Cluster)
    (m : JMap String SkipGroup) (k : Nat) : Prop :=
  ∀ key g, JMap.get m key = some g →
    (g.parentId, g.col) ∈ skPairs rn cls ∧
    key = gKey g.parentId g.col ∧
    resolveParentCol rn cls g.parentId = some g.parentCol ∧
    g.children.length ≤ k ∧
    ∀ c ∈ g.children, (c.id, g.parentId, g.col) ∈ skTriples rn cls

/-- The group for request `r` exists, decodes `r`, and contains `r.child`. -/
def coveredReq (m : JMap String SkipGroup) (r : SkipReq) : Prop :=
  ∃ g, JMap.get m (gKey r.pid r.col) = some g ∧
    g.parentId = r.pid ∧ g.col = r.col ∧ g.parentCol = r.pc ∧
    r.child ∈ g.children

theorem pushGroupChild_wf_step (rn : List RNode) (cls : List Cluster)
    (hgk : ∀ pr1 ∈ skPairs rn cls, ∀ pr2 ∈ skPairs rn cls,
      gKey pr1.1 pr1.2 = gKey pr2.1 pr2.2 → pr1 = pr2)
    (r : SkipReq) (hr : r ∈ skReqs rn cls)
    (m0 : JMap String SkipGroup) (k0 : Nat)
    (hwf : groupsWF rn cls m0 k0) :
    groupsWF rn cls (pushGroupChild m0 r.pid r.pc r.col r.child) (k0 + 1) := by
  have hpr : (r.pid, r.col) ∈ skPairs rn cls :=
    List.mem_map.mpr ⟨r, hr, rfl⟩
  have htr : (r.child.id, r.pid, r.col) ∈ skTriples rn cls :=
    List.mem_map.mpr ⟨r, hr, rfl⟩
  intro key g hget
  by_cases hkey : key = gKey r.pid r.col
  · subst hkey
    unfold pushGroupChild at hget
    cases hg : JMap.get m0 (gKey r.pid r.col) with
    | none =>
      rw [hg] at hget
      dsimp only at hget
      rw [JMap.get_set_eq] at hget
      cases hget
      refine ⟨hpr, rfl, (skReqs_sound rn cls r hr).2.2.1, by simp, ?_⟩
      intro c hc
      simp only [List.mem_singleton] at hc
      subst hc
      exact htr
    | some g0 =>
      rw [hg] at hget
      dsimp only at hget
      rw [JMap.get_set_eq] at hget
      cases hget
      obtain ⟨hp0, hk0, hres0, hlen0, hch0⟩ := hwf _ g0 hg
      have hpair : (g0.parentId, g0.col) = (r.pid, r.col) :=
        hgk _ hp0 _ hpr hk0.symm
      have hpid0 : g0.parentId = r.pid := congrArg Prod.fst hpair
      have hcol0 : g0.col = r.col := congrArg Prod.snd hpair
      refine ⟨by dsimp only; rw [hpid0, hcol0]; exact hpr, ?_, hres0, ?_, ?_⟩
      · dsimp only; rw [hpid0, hcol0]
      · simp only [List.length_append, List.length_singleton]
        omega
      · intro c hc
        dsimp only at hc ⊢
        rcases List.mem_append.mp hc with hc | hc
        · exact hch0 c hc
        · simp only [List.mem_singleton] at hc
          subst hc
          rw [hpid0, hcol0]
          exact htr
  · rw [pushGroupChild_get_ne m0 r.pid r.pc r.col r.child key hkey] at hget
    obtain ⟨hp0, hk0, hres0, hlen0, hch0⟩ := hwf _ g hget
    exact ⟨hp0, hk0, hres0, by omega, hch0⟩

theorem pushGroupChild_covered_mono (m : JMap String SkipGroup) (r2 r : SkipReq)
    (h : coveredReq m r) :
    coveredReq (pushGroupChild m r2.pid r2.pc r2.col r2.child) r := by
  obtain ⟨g, hget, hpid, hcol, hpc, hch⟩ := h
  by_cases hkey : gKey r.pid r.col = gKey r2.pid r2.col
  · unfold pushGroupChild
    rw [← hkey, hget]
    dsimp only
    refine ⟨{ g with children := g.children ++ [r2.child] }, ?_, hpid, hcol, hpc, ?_⟩
    · rw [JMap.get_set_eq]
    · exact List.mem_append.mpr (Or.inl hch)
  · exact ⟨g, by
      rw [pushGroupChild_get_ne m r2.pid r2.pc r2.col r2.child _ hkey]
      exact hget, hpid, hcol, hpc, hch⟩

theorem replay_wf (rn : List RNode) (cls : List Cluster)
    (hgk : ∀ pr1 ∈ skPairs rn cls, ∀ pr2 ∈ skPairs rn cls,
      gKey pr1.1 pr1.2 = gKey pr2.1 pr2.2 → pr1 = pr2) :
    ∀ (L : List SkipReq) (m0 : JMap String SkipGroup) (k0 : Nat),
    (∀ r2 ∈ L, r2 ∈ skReqs rn cls) →
    groupsWF rn cls m0 k0 →
    groupsWF rn cls
      (L.foldl (fun m r => pushGroupChild m r.pid r.pc r.col r.child) m0)
      (k0 + L.length) := by
  intro L
  induction L with
  | nil => intro m0 k0 _ hwf; simpa using hwf
  | cons r rest ih =>
    intro m0 k0 hsub hwf
    rw [List.foldl_cons]
    have := ih (pushGroupChild m0 r.pid r.pc r.col r.child) (k0 + 1)
      (fun r2 h2 => hsub r2 (by simp [h2]))
      (pushGroupChild_wf_step rn cls hgk r (hsub r (by simp)) m0 k0 hwf)
    have harith : k0 + 1 + rest.length = k0 + (r :: rest).length := by
      simp
      omega
    rwa [harith] at this

theorem replay_covered (rn : List RNode) (cls : List Cluster)
    (hgk : ∀ pr1 ∈ skPairs rn cls, ∀ pr2 ∈ skPairs rn cls,
      gKey pr1.1 pr1.2 = gKey pr2.1 pr2.2 → pr1 = pr2)
    (r : SkipReq) (hr : r ∈ skReqs rn cls) :
    ∀ (L : List SkipReq) (m0 : JMap String SkipGroup) (k0 : Nat),
    (∀ r2 ∈ L, r2 ∈ skReqs rn cls) →
    groupsWF rn cls m0 k0 →
    (r ∈ L ∨ coveredReq m0 r) →
    coveredReq
      (L.foldl (fun m r => pushGroupChild m r.pid r.pc r.col r.child) m0) r := by
  intro L
  induction L with
  | nil =>
    intro m0 k0 _ _ h
    rcases h with h | h
    · cases h
    · exact h
  | cons r2 rest ih =>
    intro m0 k0 hsub hwf h
    rw [List.foldl_cons]
    have hwf2 := pushGroupChild_wf_step rn cls hgk r2 (hsub r2 (by simp)) m0 k0 hwf
    refine ih (pushGroupChild m0 r2.pid r2.pc r2.col r2.child) (k0 + 1)
      (fun r3 h3 => hsub r3 (by simp [h3])) hwf2 ?_
    rcases h with h | h
    · cases h with
      | head =>
        refine Or.inr ?_
        have hpr : (r.pid, r.col) ∈ skPairs rn cls :=
          List.mem_map.mpr ⟨r, hr, rfl⟩
        unfold pushGroupChild
        cases hg : JMap.get m0 (gKey r.pid r.col) with
        | none =>
          dsimp only
          exact ⟨_, JMap.get_set_eq _ _ _, rfl, rfl, rfl, by simp⟩
        | some g0 =>
          dsimp only
          obtain ⟨hp0, hk0, hres0, _, _⟩ := hwf _ g0 hg
          have hpair : (g0.parentId, g0.col) = (r.pid, r.col) :=
            hgk _ hp0 _ hpr hk0.symm
          have hpid0 : g0.parentId = r.pid := congrArg Prod.fst hpair
          have hcol0 : g0.col = r.col := congrArg Prod.snd hpair
          have hpc0 : g0.parentCol = r.pc := by
            rw [hpid0] at hres0
            rw [(skReqs_sound rn cls r hr).2.2.1] at hres0
            exact (Option.some.inj hres0).symm
          exact ⟨_, JMap.get_set_eq _ _ _, hpid0, hcol0, hpc0,
            List.mem_append.mpr (Or.inr (by simp))⟩
      | tail _ h => exact Or.inl h
    · exact Or.inr (pushGroupChild_covered_mono m0 r2 r h)

/-- Every skip-edge push ends up recorded in `skipEdgeGroups`, in a group
that decodes its key. -/
theorem skipEdgeGroups_covered (rn : List RNode) (cls : List Cluster)
    (hgk : ∀ pr1 ∈ skPairs rn cls, ∀ pr2 ∈ skPairs rn cls,
      gKey pr1.1 pr1.2 = gKey pr2.1 pr2.2 → pr1 = pr2)
    (r : SkipReq) (hr : r ∈ skReqs rn cls) :
    coveredReq (skipEdgeGroups rn cls) r := by
  rw [skipEdgeGroups_eq_replay]
  exact replay_covered rn cls hgk r hr (skReqs rn cls) [] 0
    (fun r2 h2 => h2) (by intro key g h; cases h) (Or.inl hr)

theorem skipEdgeGroups_wf (rn : List RNode) (cls : List Cluster)
    (hgk : ∀ pr1 ∈ skPairs rn cls, ∀ pr2 ∈ skPairs rn cls,
      gKey pr1.1 pr1.2 = gKey pr2.1 pr2.2 → pr1 = pr2) :
    groupsWF rn cls (skipEdgeGroups rn cls) (ciBound rn cls) := by
  rw [skipEdgeGroups_eq_replay]
  have := replay_wf rn cls hgk (skReqs rn cls) [] 0
    (fun r2 h2 => h2) (by intro key g h; cases h)
  simpa [ciBound] using this

theorem JMap.get_of_mem_nodup {κ α : Type} [DecidableEq κ]
    {m : JMap κ α} {k : κ} {v : α}
    (hnd : (m.map Prod.fst).Nodup) (hmem : (k, v) ∈ m) :
    JMap.get m k = some v := by
  induction m with
  | nil => cases hmem
  | cons p rest ih =>
    simp only [List.map_cons, List.nodup_cons] at hnd
    cases hmem with
    | head =>
      unfold JMap.get
      rw [if_pos rfl]
    | tail _ hmem =>
      unfold JMap.get
      by_cases hp : p.1 = k
      · exfalso
        refine hnd.1 ?_
        rw [hp]
        exact List.mem_map.mpr ⟨(k, v), hmem, rfl⟩
      · rw [if_neg hp]
        exact ih hnd.2 hmem

theorem pushGroupChild_keys_nodup (m : JMap String SkipGroup) (pid : String)
    (pc col : Int) (child : RNode)
    (h : (m.map Prod.fst).Nodup) :
    ((pushGroupChild m pid pc col child).map Prod.fst).Nodup := by
  unfold pushGroupChild
  cases JMap.get m (gKey pid col) with
  | none => exact JMap.set_keys_nodup _ _ m h
  | some g => exact JMap.set_keys_nodup _ _ m h

theorem skipEdgeGroups_keys_nodup (rn : List RNode) (cls : List Cluster) :
    ((skipEdgeGroups rn cls).map Prod.fst).Nodup := by
  rw [skipEdgeGroups_eq_replay]
  have haux : ∀ (L : List SkipReq) (m0 : JMap String SkipGroup),
      (m0.map Prod.fst).Nodup →
      (((L.foldl (fun m r => pushGroupChild m r.pid r.pc r.col r.child) m0)).map
        Prod.fst).Nodup := by
    intro L
    induction L with
    | nil => intro m0 h; exact h
    | cons r rest ih =>
      intro m0 h
      rw [List.foldl_cons]
      exact ih _ (pushGroupChild_keys_nodup m0 r.pid r.pc r.col r.child h)
  exact haux (skReqs rn cls) [] (by simp)

theorem scanReal_le :
    ∀ (real : List RNode) (ci prevIdx currIdx : Nat),
    (scanReal real ci prevIdx currIdx).1 ≤ ci + 1 := by
  intro real
  induction real with
  | nil => intro ci p c; exact Nat.le_succ ci
  | cons r rest ih =>
    intro ci p c
    unfold scanReal
    by_cases h1 : r.inputIdx < c
    · rw [if_pos h1]
      by_cases h2 : p < r.inputIdx
      · rw [if_pos h2]
      · rw [if_neg h2]
        exact ih ci p c
    · rw [if_neg h1]
      exact Nat.le_succ ci

/-- The placeholder item created by `processChild` (app.js, lines 510-519). -/
def mkPh (pid : String) (pcol col : Int) (ci : Nat) (child : RNode) : Item :=
  { id := phTag ++ phKeyStr pid col ci
    col := col
    inputIdx := child.inputIdx
    isPlaceholder := true
    clusterId := none
    parent := some (if col = pcol + 1 then pid
                    else phTag ++ phKeyStr pid (col - 1) ci) }

theorem processChild_def (pid : String) (pcol col : Int) (st : SynthState)
    (ci : Nat) (child : RNode) :
    processChild pid pcol col st ci child =
      if JMap.has st.phm (phKeyStr pid col ci)
      then { st with n2pc := JMap.set st.n2pc (nKey child.id pid col) ci }
      else { phs := st.phs ++ [mkPh pid pcol col ci child]
             phm := JMap.set st.phm (phKeyStr pid col ci)
               (mkPh pid pcol col ci child)
             n2pc := JMap.set st.n2pc (nKey child.id pid col) ci } := rfl

/-- The synthesis-state invariant: every `placeholderMap` entry is a
placeholder item of `placeholders` that decodes its key, and every
`nodeToPlaceholderCluster` entry decodes a pushed skip edge and points at
an existing `placeholderMap` entry. -/
def synthWF (rn : List RNode) (cls : List Cluster) (st : SynthState) : Prop :=
  (∀ pk ph, JMap.get st.phm pk = some ph →
    ph ∈ st.phs ∧ ph.id = phTag ++ pk ∧ ph.isPlaceholder = true ∧
    ph.clusterId = none ∧
    ∃ p l ci, (p, l) ∈ skPairs rn cls ∧ ci ≤ ciBound rn cls ∧
      pk = phKeyStr p l ci ∧ ph.col = l) ∧
  (∀ key ci, JMap.get st.n2pc key = some ci →
    ∃ c p l, (c, p, l) ∈ skTriples rn cls ∧ key = nKey c p l ∧
      ci ≤ ciBound rn cls ∧ (JMap.get st.phm (phKeyStr p l ci)).isSome)

theorem processChild_wf (rn : List RNode) (cls : List Cluster) (pid : String)
    (pcol col : Int) (st : SynthState) (ci : Nat) (child : RNode)
    (hpr : (pid, col) ∈ skPairs rn cls)
    (htr : (child.id, pid, col) ∈ skTriples rn cls)
    (hci : ci ≤ ciBound rn cls)
    (hwf : synthWF rn cls st) :
    synthWF rn cls (processChild pid pcol col st ci child) := by
  obtain ⟨hphm, hn2pc⟩ := hwf
  rw [processChild_def]
  by_cases hb : JMap.has st.phm (phKeyStr pid col ci)
  · rw [if_pos hb]
    refine ⟨hphm, ?_⟩
    intro key ci2 hget
    by_cases hkey : key = nKey child.id pid col
    · subst hkey
      rw [JMap.get_set_eq] at hget
      cases hget
      exact ⟨child.id, pid, col, htr, rfl, hci, hb⟩
    · rw [JMap.get_set_ne _ _ _ _ hkey] at hget
      exact hn2pc key ci2 hget
  · rw [if_neg hb]
    constructor
    · intro pk ph hget
      by_cases hkey : pk = phKeyStr pid col ci
      · subst hkey
        rw [JMap.get_set_eq] at hget
        cases hget
        exact ⟨List.mem_append.mpr (Or.inr (by simp)), rfl, rfl, rfl,
          pid, col, ci, hpr, hci, rfl, rfl⟩
      · rw [JMap.get_set_ne _ _ _ _ hkey] at hget
        obtain ⟨hmem, hid, hip, hcl, p, l, ci2, hp2, hc2, hpk2, hcol2⟩ :=
          hphm pk ph hget
        exact ⟨List.mem_append.mpr (Or.inl hmem), hid, hip, hcl,
          p, l, ci2, hp2, hc2, hpk2, hcol2⟩
    · intro key ci2 hget
      by_cases hkey : key = nKey child.id pid col
      · subst hkey
        rw [JMap.get_set_eq] at hget
        cases hget
        refine ⟨child.id, pid, col, htr, rfl, hci, ?_⟩
        rw [JMap.get_set_eq]
        rfl
      · rw [JMap.get_set_ne _ _ _ _ hkey] at hget
        obtain ⟨c, p, l, ht3, hk3, hc3, hs3⟩ := hn2pc key ci2 hget
        exact ⟨c, p, l, ht3, hk3, hc3,
          JMap.get_of_isSome_set _ _ _ _ hs3⟩

/-- `processChild` only extends the state. -/
theorem processChild_mono (pid : String) (pcol col : Int) (st : SynthState)
    (ci : Nat) (child : RNode) :
    (∀ i, (JMap.get st.n2pc i).isSome →
      (JMap.get (processChild pid pcol col st ci child).n2pc i).isSome) ∧
    (∀ pk, (JMap.get st.phm pk).isSome →
      (JMap.get (processChild pid pcol col st ci child).phm pk).isSome) ∧
    (∀ ph, ph ∈ st.phs → ph ∈ (processChild pid pcol col st ci child).phs) := by
  rw [processChild_def]
  by_cases hb : JMap.has st.phm (phKeyStr pid col ci)
  · rw [if_pos hb]
    exact ⟨fun i h => JMap.get_of_isSome_set _ _ _ _ h, fun pk h => h,
      fun ph h => h⟩
  · rw [if_neg hb]
    exact ⟨fun i h => JMap.get_of_isSome_set _ _ _ _ h,
      fun pk h => JMap.get_of_isSome_set _ _ _ _ h,
      fun ph h => List.mem_append.mpr (Or.inl h)⟩

theorem processChild_sets (pid : String) (pcol col : Int) (st : SynthState)
    (ci : Nat) (child : RNode) :
    (JMap.get (processChild pid pcol col st ci child).n2pc
      (nKey child.id pid col)).isSome := by
  rw [processChild_def]
  by_cases hb : JMap.has st.phm (phKeyStr pid col ci)
  · rw [if_pos hb]
    rw [JMap.get_set_eq]
    rfl
  · rw [if_neg hb]
    rw [JMap.get_set_eq]
    rfl

theorem processChildren_wf (rn : List RNode) (cls : List Cluster)
    (pid : String) (pcol col : Int)
    (hpr : (pid, col) ∈ skPairs rn cls) :
    ∀ (cs : List RNode) (prev? : Option Nat) (ci : Nat) (real : List RNode)
      (st : SynthState),
    (∀ c ∈ cs, (c.id, pid, col) ∈ skTriples rn cls) →
    ci + cs.length ≤ ciBound rn cls →
    synthWF rn cls st →
    synthWF rn cls (processChildren pid pcol col cs prev? ci real st) := by
  intro cs
  induction cs with
  | nil => intro prev? ci real st _ _ hwf; exact hwf
  | cons c rest ih =>
    intro prev? ci real st htr hbound hwf
    unfold processChildren
    have hpr1 : (match prev? with
        | none => (ci, real)
        | some prevIdx => scanReal real ci prevIdx c.inputIdx).1 ≤ ci + 1 := by
      cases prev? with
      | none => exact Nat.le_succ ci
      | some prevIdx => exact scanReal_le real ci prevIdx c.inputIdx
    have hlen : rest.length + 1 = (c :: rest).length := by simp
    refine ih (some c.inputIdx) _ _ _
      (fun c2 h2 => htr c2 (by simp [h2])) ?_ ?_
    · simp only [List.length_cons] at hbound
      omega
    · refine processChild_wf rn cls pid pcol col st _ c hpr
        (htr c (by simp)) ?_ hwf
      simp only [List.length_cons] at hbound
      omega

theorem processChildren_mono (pid : String) (pcol col : Int) :
    ∀ (cs : List RNode) (prev? : Option Nat) (ci : Nat) (real : List RNode)
      (st : SynthState),
    (∀ i, (JMap.get st.n2pc i).isSome →
      (JMap.get (processChildren pid pcol col cs prev? ci real st).n2pc
        i).isSome) ∧
    (∀ pk, (JMap.get st.phm pk).isSome →
      (JMap.get (processChildren pid pcol col cs prev? ci real st).phm
        pk).isSome) ∧
    (∀ ph, ph ∈ st.phs →
      ph ∈ (processChildren pid pcol col cs prev? ci real st).phs) := by
  intro cs
  induction cs with
  | nil =>
    intro prev? ci real st
    exact ⟨fun i h => h, fun pk h => h, fun ph h => h⟩
  | cons c rest ih =>
    intro prev? ci real st
    unfold processChildren
    obtain ⟨m1, m2, m3⟩ := processChild_mono pid pcol col st
      (match prev? with
       | none => (ci, real)
       | some prevIdx => scanReal real ci prevIdx c.inputIdx).1 c
    obtain ⟨r1, r2, r3⟩ := ih (some c.inputIdx) _ _ _
    exact ⟨fun i h => r1 i (m1 i h), fun pk h => r2 pk (m2 pk h),
      fun ph h => r3 ph (m3 ph h)⟩

theorem processChildren_sets (pid : String) (pcol col : Int) :
    ∀ (cs : List RNode) (prev? : Option Nat) (ci : Nat) (real : List RNode)
      (st : SynthState) (c : RNode), c ∈ cs →
    (JMap.get (processChildren pid pcol col cs prev? ci real st).n2pc
      (nKey c.id pid col)).isSome := by
  intro cs
  induction cs with
  | nil => intro _ _ _ _ c h; cases h
  | cons c2 rest ih =>
    intro prev? ci real st c hc
    unfold processChildren
    cases hc with
    | head =>
      exact (processChildren_mono pid pcol col rest _ _ _ _).1 _
        (processChild_sets pid pcol col st _ c2)
    | tail _ hc => exact ih _ _ _ _ c hc

theorem processGroup_wf (rn : List RNode) (cls : List Cluster)
    (realAt : JMap Int (List RNode)) (st : SynthState) (g : SkipGroup)
    (hpr : (g.parentId, g.col) ∈ skPairs rn cls)
    (htr : ∀ c ∈ g.children, (c.id, g.parentId, g.col) ∈ skTriples rn cls)
    (hlen : g.children.length ≤ ciBound rn cls)
    (hwf : synthWF rn cls st) :
    synthWF rn cls (processGroup realAt st g) := by
  unfold processGroup
  refine processChildren_wf rn cls g.parentId g.parentCol g.col hpr _ none 0 _
    st ?_ ?_ hwf
  · intro c hc
    exact htr c ((mem_sortByIdx _ c _).mp hc)
  · rw [Nat.zero_add,
      (sortByIdx_perm (fun n : RNode => n.inputIdx) g.children).length_eq]
    exact hlen

theorem processGroup_mono (realAt : JMap Int (List RNode)) (st : SynthState)
    (g : SkipGroup) :
    (∀ i, (JMap.get st.n2pc i).isSome →
      (JMap.get (processGroup realAt st g).n2pc i).isSome) ∧
    (∀ pk, (JMap.get st.phm pk).isSome →
      (JMap.get (processGroup realAt st g).phm pk).isSome) ∧
    (∀ ph, ph ∈ st.phs → ph ∈ (processGroup realAt st g).phs) := by
  unfold processGroup
  exact processChildren_mono g.parentId g.parentCol g.col _ none 0 _ st

theorem processGroup_sets (realAt : JMap Int (List RNode)) (st : SynthState)
    (g : SkipGroup) (c : RNode) (hc : c ∈ g.children) :
    (JMap.get (processGroup realAt st g).n2pc
      (nKey c.id g.parentId g.col)).isSome := by
  unfold processGroup
  exact processChildren_sets g.parentId g.parentCol g.col _ none 0 _ st c
    ((mem_sortByIdx _ c _).mpr hc)

theorem synthFold_mono (realAt : JMap Int (List RNode)) :
    ∀ (L : List (String × SkipGroup)) (st : SynthState),
    (∀ i, (JMap.get st.n2pc i).isSome →
      (JMap.get (L.foldl (fun st pr => processGroup realAt st pr.2) st).n2pc
        i).isSome) ∧
    (∀ pk, (JMap.get st.phm pk).isSome →
      (JMap.get (L.foldl (fun st pr => processGroup realAt st pr.2) st).phm
        pk).isSome) ∧
    (∀ ph, ph ∈ st.phs →
      ph ∈ (L.foldl (fun st pr => processGroup realAt st pr.2) st).phs) := by
  intro L
  induction L with
  | nil => intro st; exact ⟨fun i h => h, fun pk h => h, fun ph h => h⟩
  | cons pr rest ih =>
    intro st
    rw [List.foldl_cons]
    obtain ⟨m1, m2, m3⟩ := processGroup_mono realAt st pr.2
    obtain ⟨r1, r2, r3⟩ := ih (processGroup realAt st pr.2)
    exact ⟨fun i h => r1 i (m1 i h), fun pk h => r2 pk (m2 pk h),
      fun ph h => r3 ph (m3 ph h)⟩

theorem synthFold_wf (rn : List RNode) (cls : List Cluster)
    (realAt : JMap Int (List RNode)) :
    ∀ (L : List (String × SkipGroup)) (st : SynthState),
    (∀ pr ∈ L, (pr.2.parentId, pr.2.col) ∈ skPairs rn cls ∧
      (∀ c ∈ pr.2.children,
        (c.id, pr.2.parentId, pr.2.col) ∈ skTriples rn cls) ∧
      pr.2.children.length ≤ ciBound rn cls) →
    synthWF rn cls st →
    synthWF rn cls (L.foldl (fun st pr => processGroup realAt st pr.2) st) := by
  intro L
  induction L with
  | nil => intro st _ hwf; exact hwf
  | cons pr rest ih =>
    intro st hL hwf
    rw [List.foldl_cons]
    obtain ⟨h1, h2, h3⟩ := hL pr (by simp)
    exact ih _ (fun q hq => hL q (by simp [hq]))
      (processGroup_wf rn cls realAt st pr.2 h1 h2 h3 hwf)

theorem synthFold_sets (realAt : JMap Int (List RNode)) :
    ∀ (L : List (String × SkipGroup)) (st : SynthState)
      (pr : String × SkipGroup) (c : RNode),
    pr ∈ L → c ∈ pr.2.children →
    (JMap.get ((L.foldl (fun st pr => processGroup realAt st pr.2) st)).n2pc
      (nKey c.id pr.2.parentId pr.2.col)).isSome := by
  intro L
  induction L with
  | nil => intro _ _ _ hpr; cases hpr
  | cons pr2 rest ih =>
    intro st pr c hpr hc
    rw [List.foldl_cons]
    cases hpr with
    | head =>
      exact (synthFold_mono realAt rest _).1 _
        (processGroup_sets realAt st pr2.2 c hc)
    | tail _ hpr => exact ih _ pr c hpr hc

theorem synthesize_wf (rn : List RNode) (cls : List Cluster)
    (hgk : ∀ pr1 ∈ skPairs rn cls, ∀ pr2 ∈ skPairs rn cls,
      gKey pr1.1 pr1.2 = gKey pr2.1 pr2.2 → pr1 = pr2) :
    synthWF rn cls (synthesize rn cls) := by
  unfold synthesize
  refine synthFold_wf rn cls _ _ _ ?_ ?_
  · intro pr hpr
    have hget : JMap.get (skipEdgeGroups rn cls) pr.1 = some pr.2 :=
      JMap.get_of_mem_nodup (skipEdgeGroups_keys_nodup rn cls) hpr
    obtain ⟨h1, _, _, h4, h5⟩ := skipEdgeGroups_wf rn cls hgk pr.1 pr.2 hget
    exact ⟨h1, h5, h4⟩
  · refine ⟨?_, ?_⟩
    · intro pk ph h
      cases h
    · intro key ci h
      cases h

theorem synthesize_covers (rn : List RNode) (cls : List Cluster)
    (hgk : ∀ pr1 ∈ skPairs rn cls, ∀ pr2 ∈ skPairs rn cls,
      gKey pr1.1 pr1.2 = gKey pr2.1 pr2.2 → pr1 = pr2)
    (r : SkipReq) (hr : r ∈ skReqs rn cls) :
    (JMap.get (synthesize rn cls).n2pc
      (nKey r.child.id r.pid r.col)).isSome := by
  obtain ⟨g, hget, hpid, hcol, _, hch⟩ := skipEdgeGroups_covered rn cls hgk r hr
  unfold synthesize
  have hmem : (gKey r.pid r.col, g) ∈ skipEdgeGroups rn cls :=
    JMap.get_mem hget
  have := synthFold_sets (realNodesAtCol rn) (skipEdgeGroups rn cls)
    { phs := [], phm := [], n2pc := [] } (gKey r.pid r.col, g) r.child hmem hch
  rwa [show (gKey r.pid r.col, g).2 = g from rfl, hpid, hcol] at this

/-- After synthesis, every skip-edge push has a `nodeToPlaceholderCluster`
entry and the placeholder that entry points at exists, sits in the skipped
column, and is a placeholder item. -/
theorem synthesize_waypoint (rn : List RNode) (cls : List Cluster)
    (hgk : ∀ pr1 ∈ skPairs rn cls, ∀ pr2 ∈ skPairs rn cls,
      gKey pr1.1 pr1.2 = gKey pr2.1 pr2.2 → pr1 = pr2)
    (hnk : ∀ t1 ∈ skTriples rn cls, ∀ t2 ∈ skTriples rn cls,
      nKey t1.1 t1.2.1 t1.2.2 = nKey t2.1 t2.2.1 t2.2.2 → t1 = t2)
    (hpk : ∀ pr1 ∈ skPairs rn cls, ∀ pr2 ∈ skPairs rn cls,
      ∀ ci1 ∈ List.range (ciBound rn cls + 1),
      ∀ ci2 ∈ List.range (ciBound rn cls + 1),
      phKeyStr pr1.1 pr1.2 ci1 = phKeyStr pr2.1 pr2.2 ci2 →
        pr1 = pr2 ∧ ci1 = ci2)
    (r : SkipReq) (hr : r ∈ skReqs rn cls) :
    ∃ ci ph,
      JMap.get (synthesize rn cls).n2pc (nKey r.child.id r.pid r.col) =
        some ci ∧
      ph ∈ (synthesize rn cls).phs ∧ ph.id = phId r.pid r.col ci ∧
      ph.col = r.col ∧ ph.isPlaceholder = true ∧ ph.clusterId = none := by
  obtain ⟨ci, hci⟩ := Option.isSome_iff_exists.mp
    (synthesize_covers rn cls hgk r hr)
  obtain ⟨hphm, hn2pc⟩ := synthesize_wf rn cls hgk
  obtain ⟨c, p, l, ht3, hk3, hle3, hs3⟩ := hn2pc _ ci hci
  have htr : (r.child.id, r.pid, r.col) ∈ skTriples rn cls :=
    List.mem_map.mpr ⟨r, hr, rfl⟩
  have heq3 : ((r.child.id, r.pid, r.col) : String × String × Int) =
      (c, p, l) := hnk _ htr _ ht3 hk3
  have hp3 : p = r.pid := by
    have := congrArg (fun t : String × String × Int => t.2.1) heq3
    exact this.symm
  have hl3 : l = r.col := by
    have := congrArg (fun t : String × String × Int => t.2.2) heq3
    exact this.symm
  rw [hp3, hl3] at hs3
  obtain ⟨ph, hph⟩ := Option.isSome_iff_exists.mp hs3
  obtain ⟨hmem, hid, hip, hcl, p2, l2, ci2, hp2, hc2, hpk2, hcol2⟩ :=
    hphm _ ph hph
  have hprr : ((r.pid, r.col) : String × Int) ∈ skPairs rn cls :=
    List.mem_map.mpr ⟨r, hr, rfl⟩
  have hpair : ((r.pid, r.col) : String × Int) = (p2, l2) ∧ ci = ci2 := by
    refine hpk _ hprr _ hp2 ci ?_ ci2 ?_ hpk2
    · exact List.mem_range.mpr (by omega)
    · exact List.mem_range.mpr (by omega)
  have hp2e : p2 = r.pid := (congrArg Prod.fst hpair.1).symm
  have hl2e : l2 = r.col := (congrArg Prod.snd hpair.1).symm
  refine ⟨ci, ph, hci, hmem, ?_, ?_, hip, hcl⟩
  · rw [hid, hpk2, ← hpair.2, hp2e, hl2e]
    rfl
  · rw [hcol2, hl2e]

theorem columnsPhase_isSome (lpm : JMap String (List String))
    (hts : JMap String ℚ) (cols : JMap Int (List Item)) :
    ∀ (sorted : List Int) (relY0 : JMap String ℚ) (c : Int) (it : Item),
    c ∈ sorted → it ∈ (JMap.get cols c).getD [] → it.clusterId = none →
    (JMap.get (columnsPhase lpm hts cols sorted relY0) it.id).isSome := by
  intro sorted
  induction sorted with
  | nil => intro relY0 c it hc; cases hc
  | cons c2 rest ih =>
    intro relY0 c it hc hit hcl
    rw [columnsPhase_cons]
    cases hc with
    | head =>
      refine columnsPhase_get_mono lpm hts cols it.id rest _ ?_
      exact sweepColumn_get_mono _ _ it.id
        (placeColumn_isSome lpm hts relY0 _ it hit hcl)
    | tail _ hc => exact ih _ c it hc hit hcl

/-- Any pipeline item that is either not a cluster member or is listed
among its cluster record's members has a relative-Y entry after the
positioning phases: non-members are placed by their column's loop,
members by the cluster stacking phase. -/
theorem pipeRelY_isSome_of_placed (rn : List RNode) (cls : List Cluster)
    (it : Item) (hit : it ∈ pipeItems rn cls)
    (hpl : it.clusterId = none ∨ ∃ cm ∈ cls, it.id ∈ cm.members) :
    (JMap.get (pipeRelY rn cls) it.id).isSome := by
  rcases hpl with hcl | ⟨cm, hcm, hmm⟩
  · obtain ⟨bucket, hbg, hitb⟩ := columnsOf_contains (pipeItems rn cls) it hit
    have hbgp : JMap.get (pipeCols rn cls) it.col = some bucket := hbg
    have hcmem : it.col ∈ pipeSorted rn cls := by
      unfold pipeSorted
      exact (mem_sortedColsOf _ it.col).mpr (key_mem_of_get_some hbgp)
    unfold pipeRelY
    refine updateClusterCenters_get_mono cls it.id _ ?_
    refine columnsPhase_isSome _ _ _ _ _ it.col it hcmem ?_ hcl
    rw [hbgp]
    exact hitb
  · unfold pipeRelY
    refine updateClusterCenters_get_mono cls it.id _ ?_
    refine columnsPhase_get_mono _ _ _ it.id _ _ ?_
    exact clusterPhase_member_isSome cls _ cm it.id hcm hmm

/-- Every placed pipeline item gets a position entry whose column,
placeholder flag and cluster flag copy the item. -/
theorem corePositions_item_entry (rn : List RNode) (cls : List Cluster)
    (it : Item) (hit : it ∈ pipeItems rn cls)
    (hids : ((pipeItems rn cls).map Item.id).Nodup)
    (hpl : it.clusterId = none ∨ ∃ cm ∈ cls, it.id ∈ cm.members)
    (hclsid : ∀ cm ∈ cls, it.id ≠ cm.id) :
    ∃ e, JMap.get (corePositions rn cls).1 it.id = some e ∧
      e.col = it.col ∧ e.isPlaceholder = it.isPlaceholder ∧
      e.isCluster = false := by
  have hrel := pipeRelY_isSome_of_placed rn cls it hit hpl
  obtain ⟨cy, hcy⟩ := Option.isSome_iff_exists.mp hrel
  have hbp := buildPos_get_some (pipeRelY rn cls) (pipeOff rn cls)
    (pipeItems rn cls) it cy hcy hit hids
  refine ⟨itemEntry it cy (pipeOff rn cls), ?_, rfl, rfl, rfl⟩
  show JMap.get (addClusterBoxes cls (pipeRelY rn cls) (pipeOff rn cls)
    (buildPos (pipeRelY rn cls) (pipeOff rn cls) (pipeItems rn cls)))
      it.id = _
  unfold addClusterBoxes
  rw [addClusterBoxes_foldl_get_ne _ _ it.id cls _ hclsid]
  exact hbp

theorem byIdR_some (rn : List RNode) (pid : String) (pn : RNode)
    (h : byIdR rn pid = some pn) : pn ∈ rn ∧ pn.id = pid := by
  unfold byIdR at h
  refine ⟨List.mem_reverse.mp (List.mem_of_find?_eq_some h), ?_⟩
  simpa using List.find?_some h

theorem filterMap_forall₂ {α β : Type} (f : α → Option β) (P : α → β → Prop) :
    ∀ (l : List α), (∀ a ∈ l, ∃ b, f a = some b ∧ P a b) →
    List.Forall₂ P l (l.filterMap f) := by
  intro l
  induction l with
  | nil => intro _; exact List.Forall₂.nil
  | cons a rest ih =>
    intro h
    obtain ⟨b, hb, hP⟩ := h a (by simp)
    rw [List.filterMap_cons, hb]
    exact List.Forall₂.cons hP (ih (fun a2 h2 => h a2 (by simp [h2])))

theorem intRange_length (a b : Int) : (intRange a b).length = (b - a).toNat := by
  unfold intRange
  rw [List.length_map, List.length_range]

theorem intRange_get (a b : Int) (i : Nat) (h : i < (intRange a b).length) :
    (intRange a b).get ⟨i, h⟩ = a + Int.ofNat i := by
  unfold intRange
  rw [List.get_map]
  congr 1
  simp

theorem wpSegments_length :
    ∀ (l : List PosEntry) (y : ℚ), (wpSegments l y).1.length = 2 * l.length := by
  intro l
  induction l with
  | nil => intro y; rfl
  | cons wp rest ih =>
    intro y
    unfold wpSegments
    dsimp only
    rw [List.length_cons, List.length_cons, ih, List.length_cons]
    omega

theorem routeEdge_length (parentId childId : String)
    (pos : JMap String PosEntry) (n2pc : JMap String Nat) (p c : PosEntry)
    (hp : JMap.get pos parentId = some p) (hc : JMap.get pos childId = some c) :
    (routeEdge parentId childId pos n2pc).length =
      4 + 2 * (collectWaypoints parentId childId pos n2pc p.col c.col).length := by
  unfold routeEdge
  rw [hp, hc]
  dsimp only
  cases hw : collectWaypoints parentId childId pos n2pc p.col c.col with
  | nil => rfl
  | cons w0 rest =>
    dsimp only
    rw [List.length_cons, List.length_append, wpSegments_length]
    simp only [List.length_cons, List.length_nil]
    omega

/-- C2 (amended): for an edge from a real node parent to a real node
child whose column exceeds the parent's by `k > 1` — each endpoint node
either no cluster member or listed among its cluster record's members —
the waypoint list `routeEdge` collects has exactly `k - 1` entries, one
placeholder per skipped column in order, and the polyline has
`4 + 2(k-1)` points; assumes unique item ids, the composite string keys
collision-free on the occurring skip edges, and cluster ids disjoint from
item ids (so the parent id denotes the node, not a cluster). -/
theorem claim_C2_skip_waypoints (rn : List RNode) (cls : List Cluster)
    (n pn : RNode) (pid : String)
    (hn : n ∈ rn) (hpid : pid ∈ n.parentIds)
    (hnpl : n.clusterId = none ∨ ∃ cm ∈ cls, n.id ∈ cm.members)
    (hpnpl : pn.clusterId = none ∨ ∃ cm ∈ cls, pn.id ∈ cm.members)
    (hnocl : clusterById cls pid = none)
    (hbyid : byIdR rn pid = some pn)
    (hk : pn.col + 1 < n.col)
    (hgk : ∀ pr1 ∈ skPairs rn cls, ∀ pr2 ∈ skPairs rn cls,
      gKey pr1.1 pr1.2 = gKey pr2.1 pr2.2 → pr1 = pr2)
    (hnk : ∀ t1 ∈ skTriples rn cls, ∀ t2 ∈ skTriples rn cls,
      nKey t1.1 t1.2.1 t1.2.2 = nKey t2.1 t2.2.1 t2.2.2 → t1 = t2)
    (hpk : ∀ pr1 ∈ skPairs rn cls, ∀ pr2 ∈ skPairs rn cls,
      ∀ ci1 ∈ List.range (ciBound rn cls + 1),
      ∀ ci2 ∈ List.range (ciBound rn cls + 1),
      phKeyStr pr1.1 pr1.2 ci1 = phKeyStr pr2.1 pr2.2 ci2 →
        pr1 = pr2 ∧ ci1 = ci2)
    (hids : ((pipeItems rn cls).map Item.id).Nodup)
    (hclsid : ∀ cm ∈ cls, ∀ it ∈ pipeItems rn cls, it.id ≠ cm.id) :
    ∃ pe ce,
      JMap.get (corePositions rn cls).1 pid = some pe ∧
      JMap.get (corePositions rn cls).1 n.id = some ce ∧
      pe.col = pn.col ∧ ce.col = n.col ∧
      (collectWaypoints pid n.id (corePositions rn cls).1
        (corePositions rn cls).2 pn.col n.col).length =
        (n.col - pn.col - 1).toNat ∧
      (∀ i, ∀ h : i < (collectWaypoints pid n.id (corePositions rn cls).1
          (corePositions rn cls).2 pn.col n.col).length,
        ((collectWaypoints pid n.id (corePositions rn cls).1
          (corePositions rn cls).2 pn.col n.col).get ⟨i, h⟩).col =
            pn.col + 1 + Int.ofNat i ∧
        ((collectWaypoints pid n.id (corePositions rn cls).1
          (corePositions rn cls).2 pn.col n.col).get ⟨i, h⟩).isPlaceholder =
            true) ∧
      (routeEdge pid n.id (corePositions rn cls).1
        (corePositions rn cls).2).length =
        4 + 2 * (n.col - pn.col - 1).toNat := by
  obtain ⟨hpnmem, hpnid⟩ := byIdR_some rn pid pn hbyid
  have hres : resolveParentCol rn cls pid = some pn.col := by
    unfold resolveParentCol
    rw [hnocl]
    dsimp only
    rw [hbyid]
    rfl
  have hitp : toItem pn ∈ pipeItems rn cls := by
    unfold pipeItems allItemsOf
    exact List.mem_append.mpr (Or.inl (List.mem_map.mpr ⟨pn, hpnmem, rfl⟩))
  have hitc : toItem n ∈ pipeItems rn cls := by
    unfold pipeItems allItemsOf
    exact List.mem_append.mpr (Or.inl (List.mem_map.mpr ⟨n, hn, rfl⟩))
  obtain ⟨pe, hpe, hpecol, _, _⟩ :=
    corePositions_item_entry rn cls (toItem pn) hitp hids hpnpl
      (fun cm hcm => hclsid cm hcm (toItem pn) hitp)
  obtain ⟨ce, hce, hcecol, _, _⟩ :=
    corePositions_item_entry rn cls (toItem n) hitc hids hnpl
      (fun cm hcm => hclsid cm hcm (toItem n) hitc)
  rw [show (toItem pn).id = pid from hpnid] at hpe
  have hpecol2 : pe.col = pn.col := hpecol
  have hcecol2 : ce.col = n.col := hcecol
  have hce2 : JMap.get (corePositions rn cls).1 n.id = some ce := hce
  have hall : ∀ col ∈ intRange (pn.col + 1) n.col,
      ∃ e, (JMap.get (corePositions rn cls).1 (phId pid col
          ((JMap.get (corePositions rn cls).2
            (nKey n.id pid col)).getD 0))) = some e ∧
        (e.col = col ∧ e.isPlaceholder = true) := by
    intro col hcol
    have hreq : ({ pid := pid, pc := pn.col, col := col, child := n } :
        SkipReq) ∈ skReqs rn cls :=
      skReqs_complete rn cls n pid pn.col col hn hpid hres hk hcol
    obtain ⟨ci, ph, hci, hphmem, hphid, hphcol, hphip, hphcl⟩ :=
      synthesize_waypoint rn cls hgk hnk hpk _ hreq
    have hphitems : ph ∈ pipeItems rn cls := by
      unfold pipeItems allItemsOf
      exact List.mem_append.mpr (Or.inr hphmem)
    obtain ⟨e, he, hecol, heip, _⟩ :=
      corePositions_item_entry rn cls ph hphitems hids (Or.inl hphcl)
        (fun cm hcm => hclsid cm hcm ph hphitems)
    refine ⟨e, ?_, ?_, ?_⟩
    · rw [show (corePositions rn cls).2 = (synthesize rn cls).n2pc from rfl,
        hci]
      rw [show (some ci).getD 0 = ci from rfl, ← hphid]
      exact he
    · rw [hecol, hphcol]
    · rw [heip, hphip]
  have hwps : collectWaypoints pid n.id (corePositions rn cls).1
      (corePositions rn cls).2 pn.col n.col =
      (intRange (pn.col + 1) n.col).filterMap (fun col =>
        JMap.get (corePositions rn cls).1 (phId pid col
          ((JMap.get (corePositions rn cls).2 (nKey n.id pid col)).getD 0))) :=
    rfl
  have hfa := filterMap_forall₂ (fun col =>
      JMap.get (corePositions rn cls).1 (phId pid col
        ((JMap.get (corePositions rn cls).2 (nKey n.id pid col)).getD 0)))
    (fun col e => e.col = col ∧ e.isPlaceholder = true)
    (intRange (pn.col + 1) n.col) hall
  obtain ⟨hlen2, hget2⟩ := List.forall₂_iff_get.mp hfa
  have hlen : (collectWaypoints pid n.id (corePositions rn cls).1
      (corePositions rn cls).2 pn.col n.col).length =
      (n.col - pn.col - 1).toNat := by
    rw [hwps, ← hlen2, intRange_length]
    congr 1
    omega
  refine ⟨pe, ce, hpe, hce2, hpecol2, hcecol2, hlen, ?_, ?_⟩
  · intro i h
    have h2 : i < ((intRange (pn.col + 1) n.col).filterMap (fun col =>
        JMap.get (corePositions rn cls).1 (phId pid col
          ((JMap.get (corePositions rn cls).2
            (nKey n.id pid col)).getD 0)))).length := by
      rw [← hwps]
      exact h
    have h1 : i < (intRange (pn.col + 1) n.col).length := by
      rw [hlen2]
      exact h2
    have := hget2 i h1 h2
    rw [intRange_get] at this
    constructor
    · have hcoleq := this.1
      rw [show ((collectWaypoints pid n.id (corePositions rn cls).1
        (corePositions rn cls).2 pn.col n.col).get ⟨i, h⟩) =
        (((intRange (pn.col + 1) n.col).filterMap (fun col =>
          JMap.get (corePositions rn cls).1 (phId pid col
            ((JMap.get (corePositions rn cls).2
              (nKey n.id pid col)).getD 0)))).get ⟨i, h2⟩) from by
        congr 1]
      exact hcoleq
    · rw [show ((collectWaypoints pid n.id (corePositions rn cls).1
        (corePositions rn cls).2 pn.col n.col).get ⟨i, h⟩) =
        (((intRange (pn.col + 1) n.col).filterMap (fun col =>
          JMap.get (corePositions rn cls).1 (phId pid col
            ((JMap.get (corePositions rn cls).2
              (nKey n.id pid col)).getD 0)))).get ⟨i, h2⟩) from by
        congr 1]
      exact this.2
  · have hrl := routeEdge_length pid n.id (corePositions rn cls).1
      (corePositions rn cls).2 pe ce hpe hce2
    rw [hpecol2, hcecol2] at hrl
    rw [hrl, hlen]

def c2wp : RNode :=
  { id := "p", col := 0, parentIds := [], clusterId := none, inputIdx := 0 }

def c2wa : RNode :=
  { id := "a", col := 2, parentIds := ["p"], clusterId := none, inputIdx := 1 }

/-- Witness for the amended C2: a node edge skipping one column routes
through exactly one placeholder waypoint in the skipped column. -/
theorem claim_C2_witness :
    ∃ pe ce,
      JMap.get (corePositions [c2wp, c2wa] []).1 "p" = some pe ∧
      JMap.get (corePositions [c2wp, c2wa] []).1 c2wa.id = some ce ∧
      pe.col = c2wp.col ∧ ce.col = c2wa.col ∧
      (collectWaypoints "p" c2wa.id (corePositions [c2wp, c2wa] []).1
        (corePositions [c2wp, c2wa] []).2 c2wp.col c2wa.col).length =
        (c2wa.col - c2wp.col - 1).toNat ∧
      (∀ i, ∀ h : i < (collectWaypoints "p" c2wa.id
          (corePositions [c2wp, c2wa] []).1
          (corePositions [c2wp, c2wa] []).2 c2wp.col c2wa.col).length,
        ((collectWaypoints "p" c2wa.id (corePositions [c2wp, c2wa] []).1
          (corePositions [c2wp, c2wa] []).2 c2wp.col c2wa.col).get
            ⟨i, h⟩).col = c2wp.col + 1 + Int.ofNat i ∧
        ((collectWaypoints "p" c2wa.id (corePositions [c2wp, c2wa] []).1
          (corePositions [c2wp, c2wa] []).2 c2wp.col c2wa.col).get
            ⟨i, h⟩).isPlaceholder = true) ∧
      (routeEdge "p" c2wa.id (corePositions [c2wp, c2wa] []).1
        (corePositions [c2wp, c2wa] []).2).length =
        4 + 2 * (c2wa.col - c2wp.col - 1).toNat :=
  claim_C2_skip_waypoints [c2wp, c2wa] [] c2wa c2wp "p"
    (by decide) (by decide) (by decide) (by decide) (by decide) (by decide)
    (by decide) (by decide) (by decide) (by decide) (by decide) (by decide)

def c2cp : RNode :=
  { id := "p", col := 0, parentIds := [], clusterId := none, inputIdx := 0 }

def c2cm : RNode :=
  { id := "m", col := 2, parentIds := [], clusterId := some "g", inputIdx := 1 }

def c2cg : Cluster :=
  { id := "g", col := 2, members := ["m"], parentIds := ["p"] }

/-- C2 counterexample: the cluster-level parent edge `p -> g` spans two
columns (k = 2), so the claim demands one placeholder waypoint; but
placeholder synthesis only iterates nodes, never cluster records, so the
routed polyline collects zero waypoints and is the 4-point direct
connection. -/
theorem claim_C2_counterexample :
    (JMap.get (corePositions [c2cp, c2cm] [c2cg]).1 "p").map PosEntry.col =
      some 0 ∧
    (JMap.get (corePositions [c2cp, c2cm] [c2cg]).1 "g").map PosEntry.col =
      some 2 ∧
    (collectWaypoints "p" "g" (corePositions [c2cp, c2cm] [c2cg]).1
      (corePositions [c2cp, c2cm] [c2cg]).2 0 2).length = 0 ∧
    (routeEdge "p" "g" (corePositions [c2cp, c2cm] [c2cg]).1
      (corePositions [c2cp, c2cm] [c2cg]).2).length = 4 := by
  decide
